import Mathlib

/-!
BERT WordPiece tokenizer: `third_party/predictors/onnx/tokenizer.cpp`

A shallow embedding of the tokenizer and theorems about it.

* A `std::wstring` is a list of codepoints (`List Nat`), a `std::string` a list
  of bytes (`List Nat`).
* The utf8proc library is not part of the repository; its five entry points
  used here are the fields of `Utf8proc`, and `AsciiSound` states what the
  library does on the ASCII range.
* `tokenizer.hpp` is not among the sources. Its constant `stripChar` is the
  parameter `S` of every function that reads it. The unknown marker and the
  word limit of the `WordpieceTokenizer` are its constructor arguments; the
  `FullTokenizer` builds its `WordpieceTokenizer` with the defaults declared
  in the header, which are the parameters `unk` and `maxChars` here.
* `Vocab` is the map behind `mVocab`: `find` is `Vocab.contains`, and
  `operator[]`, which inserts a zero entry for an absent key, is `Vocab.index`
  and returns the container after the access. The functions that index the
  vocabulary therefore return it, or carry it in their state.
* `loadVocab` takes the lines of the vocabulary file, as `getline` delivers
  them, instead of the file name.
* Loops are recursive functions named after their function with `Loop`, or
  after their role (`idsInner`, `idsOuter`); a loop whose body can `return`
  yields a `Flow`.
* C++ `int` is `Int` and ids are natural numbers; the counters of
  `tokenizeToIds` and the ids are far from the limits of `int` and `int64_t`
  for any vocabulary and token list that fit in memory.
-/

namespace Tokenizer

/-- Unicode general categories, in the order of `utf8proc_category_t`. -/
inductive Category
  | CN | LU | LL | LT | LM | LO | MN | MC | ME | ND | NL | NO
  | PC | PD | PS | PE | PI | PF | PO | SM | SC | SK | SO
  | ZS | ZL | ZP | CC | CF | CS | CO
  deriving DecidableEq, Repr

/-- The utf8proc functions called by the tokenizer.
`iterate bytes` is `utf8proc_iterate` on the remaining bytes: the returned
number of bytes read (negative on error) and the decoded codepoint.
`encode_char c` is the bytes written by `utf8proc_encode_char` (none when it
returns a count `<= 0`). `NFD` is `utf8proc_NFD` on a C string (`none` for a
`NULL` result). -/
structure Utf8proc where
  iterate : List Nat → Int × Nat
  encode_char : Nat → List Nat
  NFD : List Nat → Option (List Nat)
  tolower : Nat → Nat
  category : Nat → Category

/-- Codepoint strings (`std::wstring`). -/
abbrev WString := List Nat

/-- The vocabulary container (`Vocab`, a map from token to id). -/
abbrev Vocab := List (WString × Nat)

/-- Membership test `mVocab->find(key) != mVocab->end()`. -/
def Vocab.contains (V : Vocab) (key : WString) : Bool :=
  (V.lookup key).isSome

/-- Indexing `(*mVocab)[key]`: the stored id, or `0` after inserting a
zero-valued entry when the key is absent. Returns the id and the container
as it is after the access. -/
def Vocab.index (V : Vocab) (key : WString) : Nat × Vocab :=
  match V.lookup key with
  | some v => (v, V)
  | none => (0, V ++ [(key, 0)])

/-- The C string `s.c_str()`: the bytes before the first NUL. -/
def c_str (s : List Nat) : List Nat :=
  s.takeWhile (fun b => b != 0)

/-- Source `normalize_nfd`: NFD of the C string, empty when utf8proc fails. -/
def normalize_nfd (U : Utf8proc) (s : List Nat) : List Nat :=
  match U.NFD (c_str s) with
  | some result => c_str result
  | none => []

/-- Source `isStripChar`: membership in the header constant `stripChar`. -/
def isStripChar (S : WString) (ch : Nat) : Bool :=
  S.contains ch

/-- Source `strip`: drop the strip characters at the front, then at the back. -/
def strip (S : WString) (text : WString) : WString :=
  ((text.dropWhile (isStripChar S)).reverse.dropWhile (isStripChar S)).reverse

/-- The loop of `split`: `cur` is `text.substr(pos_start, ...)` collected so
far; a delimiter closes the current token, the end of the text closes the
last one. -/
def splitLoop (S : WString) : WString → WString → List WString
  | [], cur => [cur]
  | c :: rest, cur =>
    if isStripChar S c then cur :: splitLoop S rest []
    else splitLoop S rest (cur ++ [c])

/-- Source `split`: cut at every character of `stripChar`. -/
def split (S : WString) (text : WString) : List WString :=
  splitLoop S text []

/-- Source `whitespaceTokenize`: nothing when the stripped text is empty,
otherwise `split` of the (unstripped) text. -/
def whitespaceTokenize (S : WString) (text : WString) : List WString :=
  if (strip S text).isEmpty then [] else split S text

/-- The loop of `convertToUnicode` over the bytes from index `i` on. The
fuel is the number of bytes; every successful `utf8proc_iterate` reads at
least one byte. -/
def convertToUnicodeLoop (U : Utf8proc) : Nat → List Nat → WString → WString
  | 0, _, ret => ret
  | fuel + 1, rest, ret =>
    if rest.isEmpty then ret
    else
      let r := U.iterate rest
      if r.1 < 0 then []
      else convertToUnicodeLoop U fuel (rest.drop r.1.toNat) (ret ++ [r.2])

/-- Source `convertToUnicode`. -/
def convertToUnicode (U : Utf8proc) (text : List Nat) : WString :=
  convertToUnicodeLoop U text.length text []

/-- The loop of `convertFromUnicode`. -/
def convertFromUnicodeLoop (U : Utf8proc) : WString → List Nat → List Nat
  | [], ret => ret
  | ch :: rest, ret =>
    if (U.encode_char ch).isEmpty then []
    else convertFromUnicodeLoop U rest (ret ++ U.encode_char ch)

/-- Source `convertFromUnicode`. -/
def convertFromUnicode (U : Utf8proc) (wText : WString) : List Nat :=
  convertFromUnicodeLoop U wText []

/-- Source `tolower`. -/
def tolower (U : Utf8proc) (s : WString) : WString :=
  s.map U.tolower

namespace BasicTokenizer

/-- Source `BasicTokenizer::isControol`. -/
def isControol (U : Utf8proc) (ch : Nat) : Bool :=
  if ch = 9 ∨ ch = 10 ∨ ch = 13 then false
  else if U.category ch = Category.CC ∨ U.category ch = Category.CF then true
  else false

/-- Source `BasicTokenizer::isWhitespace`. -/
def isWhitespace (U : Utf8proc) (ch : Nat) : Bool :=
  if ch = 32 ∨ ch = 9 ∨ ch = 10 ∨ ch = 13 then true
  else if U.category ch = Category.ZS then true
  else false

/-- Source `BasicTokenizer::isPunctuation`. -/
def isPunctuation (U : Utf8proc) (ch : Nat) : Bool :=
  if (33 ≤ ch ∧ ch ≤ 47) ∨ (58 ≤ ch ∧ ch ≤ 64) ∨
      (91 ≤ ch ∧ ch ≤ 96) ∨ (123 ≤ ch ∧ ch ≤ 126) then true
  else if U.category ch = Category.PD ∨ U.category ch = Category.PS
      ∨ U.category ch = Category.PE ∨ U.category ch = Category.PC
      ∨ U.category ch = Category.PO
      ∨ U.category ch = Category.PI
      ∨ U.category ch = Category.PF then true
  else false

/-- Source `BasicTokenizer::isChineseChar`. -/
def isChineseChar (ch : Nat) : Bool :=
  if (0x4E00 ≤ ch ∧ ch ≤ 0x9FFF) ∨
      (0x3400 ≤ ch ∧ ch ≤ 0x4DBF) ∨
      (0x20000 ≤ ch ∧ ch ≤ 0x2A6DF) ∨
      (0x2A700 ≤ ch ∧ ch ≤ 0x2B73F) ∨
      (0x2B740 ≤ ch ∧ ch ≤ 0x2B81F) ∨
      (0x2B820 ≤ ch ∧ ch ≤ 0x2CEAF) ∨
      (0xF900 ≤ ch ∧ ch ≤ 0xFAFF) ∨
      (0x2F800 ≤ ch ∧ ch ≤ 0x2FA1F) then true
  else false

/-- Source `BasicTokenizer::cleanText`. -/
def cleanText (U : Utf8proc) : WString → WString
  | [] => []
  | cp :: rest =>
    if cp = 0 ∨ cp = 0xfffd ∨ isControol U cp then cleanText U rest
    else if isWhitespace U cp then 32 :: cleanText U rest
    else cp :: cleanText U rest

/-- Source `BasicTokenizer::tokenizeChineseChars`. -/
def tokenizeChineseChars : WString → WString
  | [] => []
  | ch :: rest =>
    if isChineseChar ch then 32 :: ch :: 32 :: tokenizeChineseChars rest
    else ch :: tokenizeChineseChars rest

/-- Source `BasicTokenizer::runStripAccents`: re-decode the NFD form and drop
the nonspacing marks. -/
def runStripAccents (U : Utf8proc) (text : WString) : WString :=
  (convertToUnicode U (normalize_nfd U (convertFromUnicode U text))).filter
    (fun ch => U.category ch != Category.MN)

/-- The statement `output[output.size() - 1] += ch`. -/
def appendToLast : List WString → Nat → List WString
  | [], _ => []
  | [w], ch => [w ++ [ch]]
  | w :: w2 :: ws, ch => w :: appendToLast (w2 :: ws) ch

/-- The loop of `runSplitOnPunc` with its two variables `startNewWord` and
`output`. -/
def runSplitOnPuncLoop (U : Utf8proc) : WString → Bool → List WString → List WString
  | [], _, output => output
  | ch :: rest, startNewWord, output =>
    if isPunctuation U ch then
      runSplitOnPuncLoop U rest true (output ++ [[ch]])
    else
      runSplitOnPuncLoop U rest false
        (appendToLast (if startNewWord then output ++ [[]] else output) ch)

/-- Source `BasicTokenizer::runSplitOnPunc`. -/
def runSplitOnPunc (U : Utf8proc) (text : WString) : List WString :=
  runSplitOnPuncLoop U text true []

/-- Source `BasicTokenizer::join`: `std::copy(b, prev(e), ...)` writes every
element but the last, each followed by the delimiter `L" "`; the statement
that would write the last element is commented out in the source. -/
def join (elements : List WString) : WString :=
  (elements.dropLast.map (fun w => w ++ [32])).flatten

/-- The body of the `for` loop of `BasicTokenizer::tokenize` for one token. -/
def splitToken (U : Utf8proc) (doLowerCase : Bool) (token : WString) : List WString :=
  runSplitOnPunc U (if doLowerCase then runStripAccents U (tolower U token) else token)

/-- Source `BasicTokenizer::tokenize`. -/
def tokenize (U : Utf8proc) (S : WString) (doLowerCase : Bool) (text : List Nat) :
    List WString :=
  let nText := tokenizeChineseChars (cleanText U (convertToUnicode U text))
  let origTokens := whitespaceTokenize S nText
  let splitTokens := (origTokens.map (splitToken U doLowerCase)).flatten
  whitespaceTokenize S (join splitTokens)

end BasicTokenizer

namespace WordpieceTokenizer

/-- The call `token.substr(start, len)`. -/
def substr (token : WString) (start len : Nat) : WString :=
  (token.drop start).take len

/-- The candidate looked up for the window from `start` to `stop`: the
substring, with `##` in front when `start > 0`. -/
def candidate (token : WString) (start stop : Nat) : WString :=
  if 0 < start then [35, 35] ++ substr token start (stop - start)
  else substr token start (stop - start)

/-- The inner `while (start < end)` of `WordpieceTokenizer::tokenize`. The
argument is the current value of `end`, which counts down; the result is
`curSubstr` with the final `end`, or `none` when `hasCurSubstr` stays false. -/
def matchLoop (V : Vocab) (token : WString) (start : Nat) : Nat → Option (WString × Nat)
  | 0 => none
  | e + 1 =>
    if start < e + 1 then
      if V.contains (candidate token start (e + 1)) then
        some (candidate token start (e + 1), e + 1)
      else matchLoop V token start e
    else none

/-- The outer `while (start < token.size())`. The result is `subTokens`, or
`none` when `isBad` is set. Every round moves `start` forward, so a fuel of
`token.size()` rounds is never used up before the loop ends. -/
def segmentLoop (V : Vocab) (token : WString) : Nat → Nat → List WString → Option (List WString)
  | 0, _, subTokens => some subTokens
  | fuel + 1, start, subTokens =>
    if start < token.length then
      match matchLoop V token start token.length with
      | none => none
      | some (curSubstr, stop) => segmentLoop V token fuel stop (subTokens ++ [curSubstr])
    else some subTokens

/-- The body of the `for` loop of `WordpieceTokenizer::tokenize` for one
whitespace-delimited token: what it appends to `outputTokens`. The marker
pushed for an over-long token is followed by the outcome of the
segmentation, which runs in every case. -/
def tokenizeWord (V : Vocab) (unk : WString) (maxChars : Nat) (token : WString) :
    List WString :=
  (if maxChars < token.length then [unk] else []) ++
    (match segmentLoop V token token.length 0 [] with
     | none => [unk]
     | some subTokens => subTokens)

/-- Source `WordpieceTokenizer::tokenize`. -/
def tokenize (S : WString) (V : Vocab) (unk : WString) (maxChars : Nat) (text : WString) :
    List WString :=
  ((whitespaceTokenize S text).map (tokenizeWord V unk maxChars)).flatten

end WordpieceTokenizer

namespace FullTokenizer

/-- Source `FullTokenizer::tokenize`. -/
def tokenize (U : Utf8proc) (S : WString) (doLowerCase : Bool) (V : Vocab) (unk : WString)
    (maxChars : Nat) (text : List Nat) : List WString :=
  ((BasicTokenizer.tokenize U S doLowerCase text).map
    (WordpieceTokenizer.tokenize S V unk maxChars)).flatten

/-- The loop of `convertTokensToIds`; every access goes through
`operator[]`. -/
def convertTokensToIdsLoop : List WString → Vocab → List Nat → List Nat × Vocab
  | [], V, ret => (ret, V)
  | t :: ts, V, ret => convertTokensToIdsLoop ts (V.index t).2 (ret ++ [(V.index t).1])

/-- Source `FullTokenizer::convertTokensToIds`: the ids and the vocabulary
after the call. -/
def convertTokensToIds (V : Vocab) (text : List WString) : List Nat × Vocab :=
  convertTokensToIdsLoop text V []

/-- Source `FullTokenizer::convertTokenToId`. -/
def convertTokenToId (V : Vocab) (token : WString) : Nat × Vocab :=
  V.index token

/-- Outcome of a loop body that may execute `return`. -/
inductive Flow (σ : Type)
  | next (s : σ)
  | done (s : σ)

/-- Variables of `tokenizeToIds(text, size)`: the shared vocabulary, `out`
and `i`. -/
structure IdsState where
  vocab : Vocab
  out : List Nat
  i : Int

/-- The inner `for` of `tokenizeToIds(text, size)` over the subtokens of one
token. -/
def idsInner (size : Int) : List WString → IdsState → Flow IdsState
  | [], st => Flow.next st
  | subToken :: rest, st =>
    let st1 : IdsState :=
      ⟨(st.vocab.index subToken).2, st.out ++ [(st.vocab.index subToken).1], st.i + 1⟩
    if st1.i = size then Flow.done st1 else idsInner size rest st1

/-- The outer `for` of `tokenizeToIds(text, size)`; the WordPiece tokenizer
reads the vocabulary as it is when its token comes up. -/
def idsOuter (S : WString) (unk : WString) (maxChars : Nat) (size : Int) :
    List WString → IdsState → IdsState
  | [], st => st
  | token :: rest, st =>
    match idsInner size (WordpieceTokenizer.tokenize S st.vocab unk maxChars token) st with
    | Flow.done st1 => st1
    | Flow.next st1 => idsOuter S unk maxChars size rest st1

/-- Source `FullTokenizer::tokenizeToIds(text, size)`: the final state, whose
`out` is the returned vector. -/
def tokenizeToIds (U : Utf8proc) (S : WString) (doLowerCase : Bool) (V : Vocab)
    (unk : WString) (maxChars : Nat) (text : List Nat) (size : Int) : IdsState :=
  idsOuter S unk maxChars size (BasicTokenizer.tokenize U S doLowerCase text) ⟨V, [], 0⟩

/-- Variables of the buffer-filling `tokenizeToIds`: the shared vocabulary,
the memory behind `input_ids` and `mask` addressed by element offset, `i`,
and the offsets written so far (in order). -/
structure BufState where
  vocab : Vocab
  input_ids : Int → Int
  mask : Int → Int
  i : Int
  writes : List Int

/-- The inner `for` of the buffer-filling `tokenizeToIds`. -/
def bufInner (size : Int) : List WString → BufState → Flow BufState
  | [], st => Flow.next st
  | subToken :: rest, st =>
    let st1 : BufState :=
      ⟨(st.vocab.index subToken).2,
       Function.update st.input_ids st.i ((st.vocab.index subToken).1 : Int),
       Function.update st.mask st.i 1,
       st.i + 1,
       st.writes ++ [st.i]⟩
    if st1.i = size then Flow.done st1 else bufInner size rest st1

/-- The outer `for` of the buffer-filling `tokenizeToIds`. -/
def bufOuter (S : WString) (unk : WString) (maxChars : Nat) (size : Int) :
    List WString → BufState → BufState
  | [], st => st
  | token :: rest, st =>
    match bufInner size (WordpieceTokenizer.tokenize S st.vocab unk maxChars token) st with
    | Flow.done st1 => st1
    | Flow.next st1 => bufOuter S unk maxChars size rest st1

/-- Source `FullTokenizer::tokenizeToIds(text, input_ids, mask, size, start)`:
the final state; its `i` is the returned value. -/
def tokenizeToIdsBuf (U : Utf8proc) (S : WString) (doLowerCase : Bool) (V : Vocab)
    (unk : WString) (maxChars : Nat) (text : List Nat)
    (input_ids mask : Int → Int) (size start : Int) : BufState :=
  bufOuter S unk maxChars size (BasicTokenizer.tokenize U S doLowerCase text)
    ⟨V, input_ids, mask, start, []⟩

end FullTokenizer

/-! ## Reference data for the examples -/

/-- The Unicode general category of the ASCII codepoints. -/
def asciiCategory (c : Nat) : Category :=
  if c < 32 then Category.CC
  else if c = 32 then Category.ZS
  else if c = 36 then Category.SC
  else if c = 40 then Category.PS
  else if c = 41 then Category.PE
  else if c = 43 then Category.SM
  else if c = 45 then Category.PD
  else if c < 48 then Category.PO
  else if c < 58 then Category.ND
  else if c < 60 then Category.PO
  else if c < 63 then Category.SM
  else if c < 65 then Category.PO
  else if c < 91 then Category.LU
  else if c = 91 then Category.PS
  else if c = 92 then Category.PO
  else if c = 93 then Category.PE
  else if c = 94 then Category.SK
  else if c = 95 then Category.PC
  else if c = 96 then Category.SK
  else if c < 123 then Category.LL
  else if c = 123 then Category.PS
  else if c = 124 then Category.SM
  else if c = 125 then Category.PE
  else if c = 126 then Category.SM
  else Category.CC

/-- ASCII lowercase mapping. -/
def asciiLower (c : Nat) : Nat :=
  if 65 ≤ c ∧ c ≤ 90 then c + 32 else c

/-- What utf8proc does on ASCII: a byte below 128 decodes to itself and
encodes as itself, NFD leaves a C string of ASCII bytes alone, and case
mapping and categories are the ASCII ones. -/
structure AsciiSound (U : Utf8proc) : Prop where
  iterate_ascii : ∀ b rest, b < 128 → U.iterate (b :: rest) = (1, b)
  encode_ascii : ∀ c, c < 128 → U.encode_char c = [c]
  nfd_ascii : ∀ s : List Nat, (∀ b ∈ s, 0 < b ∧ b < 128) → U.NFD s = some s
  tolower_ascii : ∀ c, c < 128 → U.tolower c = asciiLower c
  category_ascii : ∀ c, c < 128 → U.category c = asciiCategory c

/-- An instance of the library interface that handles ASCII only: any other
byte is a decoding error and any other codepoint cannot be encoded. -/
def asciiProc : Utf8proc where
  iterate := fun bytes =>
    match bytes with
    | [] => (0, 0)
    | b :: _ => if b < 128 then (1, b) else (-1, 0)
  encode_char := fun c => if c < 128 then [c] else []
  NFD := fun s => if s.all (fun b => b < 128) then some s else none
  tolower := fun c => if c < 128 then asciiLower c else c
  category := fun c => if c < 128 then asciiCategory c else Category.CN

/-- The delimiter set used in the examples: space, tab, newline, carriage
return, vertical tab, form feed. -/
def asciiStripChar : WString := [32, 9, 10, 13, 11, 12]

/-- The marker `[UNK]`. -/
def unkToken : WString := [91, 85, 78, 75, 93]

/-- The vocabulary `[UNK]` 0, `hello` 1, `world` 2, `##s` 3. -/
def exampleVocab : Vocab :=
  [([91, 85, 78, 75, 93], 0), ([104, 101, 108, 108, 111], 1),
   ([119, 111, 114, 108, 100], 2), ([35, 35, 115], 3)]

end Tokenizer

namespace Tokenizer

/-! ## Notions used to state the properties of the segmentation -/

/-- The pieces of a word put back together: the first piece as it is, every
later piece without its two leading marker codepoints `##`. -/
def rejoin : List WString → WString
  | [] => []
  | p :: ps => p ++ (ps.map (List.drop 2)).flatten

/-- The lookup key for the window of `token` from position `s` to position
`e`: the substring, with the marker `##` in front when `s` is not 0. -/
def piece (token : WString) (s e : Nat) : WString :=
  (if s = 0 then [] else [35, 35]) ++ (token.drop s).take (e - s)

/-- The start position of the piece with index `i`: the number of codepoints
of the word covered by the pieces before it. -/
def startOf (ps : List WString) (i : Nat) : Nat :=
  (rejoin (ps.take i)).length

/-- Greedy longest-match-first segmentation as the specification words it:
`Greedy V token s ps` says that the segmentation of `token` has reached the
start position `s` after emitting the pieces `ps`. A step from `s` emits the
window from `s` to `e` when it is a key of the vocabulary and no longer
window from `s` is. -/
inductive Greedy (V : Vocab) (token : WString) : Nat → List WString → Prop
  | start : Greedy V token 0 []
  | step (s e : Nat) (ps : List WString) :
      Greedy V token s ps → s < e → e ≤ token.length →
      V.contains (piece token s e) = true →
      (∀ e2, e < e2 → e2 ≤ token.length → V.contains (piece token s e2) = false) →
      Greedy V token e (ps ++ [piece token s e])

/-! ## Notions used to state the properties of the id conversions -/

/-- The id that `operator[]` returns for a token in a given vocabulary. -/
def idOf (V : Vocab) (t : WString) : Nat :=
  (V.index t).1

/-- The unbounded id sequence of a text: `convertTokensToIds(tokenize(text))`. -/
def unboundedIds (U : Utf8proc) (S : WString) (doLowerCase : Bool) (V : Vocab)
    (unk : WString) (maxChars : Nat) (text : List Nat) : List Nat :=
  (FullTokenizer.convertTokensToIds V
    (FullTokenizer.tokenize U S doLowerCase V unk maxChars text)).1

/-- The shape of the default unknown marker `[UNK]` that matters: at least
two codepoints, one of them punctuation, and no leading `##`. -/
def MarkerShape (U : Utf8proc) (unk : WString) : Prop :=
  2 ≤ unk.length ∧ (∃ c ∈ unk, BasicTokenizer.isPunctuation U c = true) ∧
    unk.take 2 ≠ [35, 35]

/-- The marker cannot be taken for a lookup key of a token: it is a key of
the vocabulary already, or the delimiter set contains the space and the
marker has the shape of `[UNK]`. -/
def MarkerSafe (U : Utf8proc) (S : WString) (V : Vocab) (unk : WString) : Prop :=
  V.contains unk = true ∨ (32 ∈ S ∧ MarkerShape U unk)

/-- The vocabulary during a run that started with `V`: still `V`, or `V` with
the zero entry that `operator[]` has inserted for the absent marker. -/
def Ext (V : Vocab) (unk : WString) (V2 : Vocab) : Prop :=
  V2 = V ∨ (V.contains unk = false ∧ V2 = V ++ [(unk, 0)])

/-- A token that WordPiece can emit for the vocabulary `V`: the marker or a
key. -/
def Known (V : Vocab) (unk : WString) (t : WString) : Prop :=
  t = unk ∨ V.contains t = true

/-- Two neighbouring codepoints of which one is punctuation are separated:
one of them is a delimiter. -/
def Separated (U : Utf8proc) (S : WString) (a b : Nat) : Prop :=
  (BasicTokenizer.isPunctuation U a = true ∨ BasicTokenizer.isPunctuation U b = true) →
    (isStripChar S a = true ∨ isStripChar S b = true)

/-- The number of ids that the loops of `tokenizeToIds` append when `len` ids
are on offer, the counter stands at `i` and the limit is `size`. -/
def truncLen (size i : Int) (len : Nat) : Nat :=
  if i < size then min len (size - i).toNat else len

/-- The ids of the WordPiece tokens of a list of coarse tokens, all computed
in the vocabulary `V`. -/
def idStream (S : WString) (V : Vocab) (unk : WString) (maxChars : Nat)
    (ws : List WString) : List Nat :=
  ((ws.map (WordpieceTokenizer.tokenize S V unk maxChars)).flatten).map (idOf V)

/-- How a state of the buffer-filling `tokenizeToIds` started at offset
`start` on the memories `ids0` and `mask0` corresponds to a state of
`tokenizeToIds(text, size)`: same vocabulary, the counter shifted by `start`,
and the ids of `out` written, with mask 1, at the offsets from `start` on. -/
def Sim (start : Int) (ids0 mask0 : Int → Int) (b : FullTokenizer.BufState)
    (st : FullTokenizer.IdsState) : Prop :=
  b.vocab = st.vocab ∧ b.i = start + st.i ∧ st.i = st.out.length ∧
  b.writes = (List.range st.out.length).map (fun (j : Nat) => start + (j : Int)) ∧
  (∀ p, b.input_ids p =
    if start ≤ p ∧ p < start + st.out.length then ((st.out.getD (p - start).toNat 0 : Nat) : Int)
    else ids0 p) ∧
  (∀ p, b.mask p = if start ≤ p ∧ p < start + st.out.length then 1 else mask0 p)

/-- Correspondence of loop outcomes: both loops go on, or both return, in
corresponding states. -/
def FlowSim (start : Int) (ids0 mask0 : Int → Int) :
    FullTokenizer.Flow FullTokenizer.BufState → FullTokenizer.Flow FullTokenizer.IdsState → Prop
  | FullTokenizer.Flow.next b, FullTokenizer.Flow.next st => Sim start ids0 mask0 b st
  | FullTokenizer.Flow.done b, FullTokenizer.Flow.done st => Sim start ids0 mask0 b st
  | _, _ => False

end Tokenizer

namespace Tokenizer

/-! ## Vocabulary loading -/

/-- The assignment `(*vocab)[key] = v`: the entry of `key` gets the value
`v`; a new entry is made when the key is absent. -/
def Vocab.assign (V : Vocab) (key : WString) (v : Nat) : Vocab :=
  if V.contains key then V.map (fun p => if p.1 == key then (p.1, v) else p)
  else V ++ [(key, v)]

/-- The `while (getline(ifs, line))` loop of `loadVocab` over the lines that
are left, with the variables `index` and `vocab`. -/
def loadVocabLoop (U : Utf8proc) (S : WString) : List (List Nat) → Nat → Vocab → Vocab
  | [], _, vocab => vocab
  | line :: rest, index, vocab =>
    if (convertToUnicode U line).isEmpty then vocab
    else
      loadVocabLoop U S rest (index + 1)
        (vocab.assign (strip S (convertToUnicode U line)) index)

/-- Source `loadVocab`, on the lines of the vocabulary file. -/
def loadVocab (U : Utf8proc) (S : WString) (lines : List (List Nat)) : Vocab :=
  loadVocabLoop U S lines 0 []

/-! ## Further notions used to state the properties -/

/-- Decoding of the bytes fails: after zero or more successful reads, each of
at least one byte, `utf8proc_iterate` reports an error on the bytes that are
left. -/
inductive DecodeFails (U : Utf8proc) : List Nat → Prop
  | here (rest : List Nat) : rest ≠ [] → (U.iterate rest).1 < 0 → DecodeFails U rest
  | later (rest : List Nat) : rest ≠ [] → 0 < (U.iterate rest).1 →
      DecodeFails U (rest.drop (U.iterate rest).1.toNat) → DecodeFails U rest

/-- ASCII letters. -/
def isAsciiLetter (c : Nat) : Prop :=
  (65 ≤ c ∧ c ≤ 90) ∨ (97 ≤ c ∧ c ≤ 122)

/-- A token of `runSplitOnPunc` that is one punctuation codepoint. -/
def PunctToken (U : Utf8proc) (x : WString) : Prop :=
  ∃ c, x = [c] ∧ BasicTokenizer.isPunctuation U c = true

/-- A token of `runSplitOnPunc` that is a non-empty run without punctuation. -/
def WordToken (U : Utf8proc) (x : WString) : Prop :=
  x ≠ [] ∧ ∀ c ∈ x, BasicTokenizer.isPunctuation U c = false

/-- Two neighbouring codepoints of which one has the property `P` are
separated: one of them is a delimiter. -/
def SepBy (P : Nat → Bool) (S : WString) (a b : Nat) : Prop :=
  (P a = true ∨ P b = true) → (isStripChar S a = true ∨ isStripChar S b = true)

/-- The ASCII-only library instance extended by the character U+4E2D: its
three bytes 228 184 173 decode to 20013, which is a letter (category Lo). -/
def cjkProc : Utf8proc where
  iterate := fun bytes =>
    match bytes with
    | 228 :: 184 :: 173 :: _ => (3, 20013)
    | _ => asciiProc.iterate bytes
  encode_char := fun c => if c = 20013 then [228, 184, 173] else asciiProc.encode_char c
  NFD := asciiProc.NFD
  tolower := asciiProc.tolower
  category := fun c => if c = 20013 then Category.LO else asciiProc.category c

end Tokenizer

namespace Tokenizer

/-! ## Evaluation on ASCII text -/

theorem isStripChar_space {S : WString} (h : 32 ∈ S) : isStripChar S 32 = true := by
  simp [isStripChar, h]

theorem isStripChar_above {S : WString} (h : ∀ c ∈ S, c ≤ 32) (c : Nat) (hc : 32 < c) :
    isStripChar S c = false := by
  simp only [isStripChar, List.contains_eq_any_beq, List.any_eq_false, beq_iff_eq]
  intro x hx hxc
  have := h x hx
  omega

theorem convertToUnicodeLoop_ascii {U : Utf8proc} (hU : AsciiSound U) :
    ∀ (fuel : Nat) (rest ret : List Nat), (∀ b ∈ rest, b < 128) → rest.length ≤ fuel →
      convertToUnicodeLoop U fuel rest ret = ret ++ rest := by
  intro fuel
  induction fuel with
  | zero =>
    intro rest ret _ hlen
    have : rest = [] := List.length_eq_zero.mp (Nat.le_zero.mp hlen)
    simp [convertToUnicodeLoop, this]
  | succ n ih =>
    intro rest ret hall hlen
    cases rest with
    | nil => simp [convertToUnicodeLoop]
    | cons b bs =>
      have hb : b < 128 := hall b (List.mem_cons_self _ _)
      have hbs : ∀ x ∈ bs, x < 128 := fun x hx => hall x (List.mem_cons_of_mem _ hx)
      have hl : bs.length ≤ n := by simpa using hlen
      simp [convertToUnicodeLoop, hU.iterate_ascii b bs hb, ih bs (ret ++ [b]) hbs hl]

theorem convertToUnicode_ascii {U : Utf8proc} (hU : AsciiSound U) (text : List Nat)
    (h : ∀ b ∈ text, b < 128) : convertToUnicode U text = text := by
  simp [convertToUnicode, convertToUnicodeLoop_ascii hU text.length text [] h (le_refl _)]

theorem convertFromUnicodeLoop_ascii {U : Utf8proc} (hU : AsciiSound U) :
    ∀ (rest ret : List Nat), (∀ b ∈ rest, b < 128) →
      convertFromUnicodeLoop U rest ret = ret ++ rest := by
  intro rest
  induction rest with
  | nil => intro ret _; simp [convertFromUnicodeLoop]
  | cons b bs ih =>
    intro ret hall
    have hb : b < 128 := hall b (List.mem_cons_self _ _)
    have hbs : ∀ x ∈ bs, x < 128 := fun x hx => hall x (List.mem_cons_of_mem _ hx)
    simp [convertFromUnicodeLoop, hU.encode_ascii b hb, ih (ret ++ [b]) hbs]

theorem convertFromUnicode_ascii {U : Utf8proc} (hU : AsciiSound U) (text : List Nat)
    (h : ∀ b ∈ text, b < 128) : convertFromUnicode U text = text := by
  simp [convertFromUnicode, convertFromUnicodeLoop_ascii hU text [] h]

theorem asciiCategory_ne_MN : ∀ c < 128, asciiCategory c ≠ Category.MN := by
  decide

theorem c_str_of_pos (s : List Nat) (h : ∀ b ∈ s, 0 < b) : c_str s = s := by
  unfold c_str
  rw [List.takeWhile_eq_self_iff]
  intro b hb
  have := h b hb
  simp
  omega

/-- Accent stripping leaves a text of nonzero ASCII codepoints as it is. -/
theorem runStripAccents_ascii {U : Utf8proc} (hU : AsciiSound U) (text : WString)
    (h : ∀ b ∈ text, 0 < b ∧ b < 128) : BasicTokenizer.runStripAccents U text = text := by
  have h1 : ∀ b ∈ text, b < 128 := fun b hb => (h b hb).2
  have h0 : ∀ b ∈ text, 0 < b := fun b hb => (h b hb).1
  unfold BasicTokenizer.runStripAccents normalize_nfd
  rw [convertFromUnicode_ascii hU text h1, c_str_of_pos text h0, hU.nfd_ascii text h]
  simp only
  rw [c_str_of_pos text h0, convertToUnicode_ascii hU text h1, List.filter_eq_self]
  intro b hb
  have := asciiCategory_ne_MN b (h1 b hb)
  simp [hU.category_ascii b (h1 b hb), this]

theorem asciiProc_sound : AsciiSound asciiProc where
  iterate_ascii := by intro b rest hb; simp [asciiProc, hb]
  encode_ascii := by intro c hc; simp [asciiProc, hc]
  nfd_ascii := by
    intro s hs
    have : ∀ b ∈ s, b < 128 := fun b hb => (hs b hb).2
    simpa [asciiProc] using this
  tolower_ascii := by intro c hc; simp [asciiProc, hc]
  category_ascii := by intro c hc; simp [asciiProc, hc]

end Tokenizer

namespace Tokenizer

/-! ## The WordPiece loops -/

theorem splitLoop_no_delim (S : WString) :
    ∀ (text cur : WString), (∀ c ∈ text, isStripChar S c = false) →
      splitLoop S text cur = [cur ++ text] := by
  intro text
  induction text with
  | nil => intro cur _; simp [splitLoop]
  | cons c rest ih =>
    intro cur h
    have hc : isStripChar S c = false := h c (List.mem_cons_self _ _)
    have hr : ∀ x ∈ rest, isStripChar S x = false := fun x hx => h x (List.mem_cons_of_mem _ hx)
    simp [splitLoop, hc, ih (cur ++ [c]) hr]

theorem dropWhile_of_all_false (p : Nat → Bool) (l : List Nat)
    (h : ∀ x ∈ l, p x = false) : l.dropWhile p = l := by
  cases l with
  | nil => rfl
  | cons a t => simp [List.dropWhile, h a (List.mem_cons_self _ _)]

theorem strip_no_delim (S : WString) (text : WString)
    (h : ∀ c ∈ text, isStripChar S c = false) : strip S text = text := by
  have h1 : text.dropWhile (isStripChar S) = text := dropWhile_of_all_false _ _ h
  have h2 : text.reverse.dropWhile (isStripChar S) = text.reverse :=
    dropWhile_of_all_false _ _ (fun x hx => h x (List.mem_reverse.mp hx))
  simp [strip, h1, h2]

/-- A non-empty token without delimiter characters is its own single
whitespace token. -/
theorem whitespaceTokenize_word (S : WString) (token : WString) (hne : token ≠ [])
    (h : ∀ c ∈ token, isStripChar S c = false) : whitespaceTokenize S token = [token] := by
  simp [whitespaceTokenize, strip_no_delim S token h, hne, split, splitLoop_no_delim S token [] h]

theorem tokenize_word (S : WString) (V : Vocab) (unk : WString) (maxChars : Nat)
    (token : WString) (hne : token ≠ []) (h : ∀ c ∈ token, isStripChar S c = false) :
    WordpieceTokenizer.tokenize S V unk maxChars token =
      WordpieceTokenizer.tokenizeWord V unk maxChars token := by
  simp [WordpieceTokenizer.tokenize, whitespaceTokenize_word S token hne h]

theorem candidate_eq (token : WString) (s e : Nat) :
    WordpieceTokenizer.candidate token s e = piece token s e := by
  unfold WordpieceTokenizer.candidate WordpieceTokenizer.substr piece
  by_cases hs : s = 0
  · simp [hs]
  · have : 0 < s := Nat.pos_of_ne_zero hs
    simp [hs, this]

/-- What a successful inner loop returns: the longest window in reach that
is a key. -/
theorem matchLoop_some (V : Vocab) (token : WString) (s : Nat) :
    ∀ (n : Nat) (c : WString) (e : Nat),
      WordpieceTokenizer.matchLoop V token s n = some (c, e) →
      s < e ∧ e ≤ n ∧ c = WordpieceTokenizer.candidate token s e ∧ V.contains c = true ∧
      ∀ e2, e < e2 → e2 ≤ n → V.contains (WordpieceTokenizer.candidate token s e2) = false := by
  intro n
  induction n with
  | zero => intro c e h; simp [WordpieceTokenizer.matchLoop] at h
  | succ n ih =>
    intro c e h
    unfold WordpieceTokenizer.matchLoop at h
    by_cases hs : s < n + 1
    · rw [if_pos hs] at h
      by_cases hc : V.contains (WordpieceTokenizer.candidate token s (n + 1)) = true
      · rw [if_pos hc] at h
        simp only [Option.some.injEq, Prod.mk.injEq] at h
        obtain ⟨h1, h2⟩ := h
        subst h1 h2
        exact ⟨hs, le_refl _, rfl, hc, fun e2 h1 h2 => absurd h2 (by omega)⟩
      · rw [if_neg hc] at h
        obtain ⟨a1, a2, a3, a4, a5⟩ := ih c e h
        refine ⟨a1, by omega, a3, a4, ?_⟩
        intro e2 h1 h2
        by_cases he : e2 = n + 1
        · subst he
          simpa using hc
        · exact a5 e2 h1 (by omega)
    · rw [if_neg hs] at h
      simp at h

/-- A failed inner loop: no window in reach is a key. -/
theorem matchLoop_none (V : Vocab) (token : WString) (s : Nat) :
    ∀ (n : Nat), WordpieceTokenizer.matchLoop V token s n = none →
      ∀ e2, s < e2 → e2 ≤ n → V.contains (WordpieceTokenizer.candidate token s e2) = false := by
  intro n
  induction n with
  | zero => intro _ e2 h1 h2; omega
  | succ n ih =>
    intro h e2 h1 h2
    unfold WordpieceTokenizer.matchLoop at h
    by_cases hs : s < n + 1
    · rw [if_pos hs] at h
      by_cases hc : V.contains (WordpieceTokenizer.candidate token s (n + 1)) = true
      · rw [if_pos hc] at h
        simp at h
      · rw [if_neg hc] at h
        by_cases he : e2 = n + 1
        · subst he
          simpa using hc
        · exact ih h e2 h1 (by omega)
    · omega

/-- The inner loop finds the longest key window when there is one. -/
theorem matchLoop_of_longest (V : Vocab) (token : WString) (s e : Nat) :
    ∀ (n : Nat), s < e → e ≤ n →
      V.contains (WordpieceTokenizer.candidate token s e) = true →
      (∀ e2, e < e2 → e2 ≤ n → V.contains (WordpieceTokenizer.candidate token s e2) = false) →
      WordpieceTokenizer.matchLoop V token s n =
        some (WordpieceTokenizer.candidate token s e, e) := by
  intro n
  induction n with
  | zero => intro h1 h2; omega
  | succ n ih =>
    intro h1 h2 h3 h4
    unfold WordpieceTokenizer.matchLoop
    by_cases he : e = n + 1
    · subst he
      simp [h1, h3]
    · have hlt : s < n + 1 := by omega
      have hc : V.contains (WordpieceTokenizer.candidate token s (n + 1)) = false :=
        h4 (n + 1) (by omega) (le_refl _)
      rw [if_pos hlt, hc]
      simp only [Bool.false_eq_true, if_false]
      exact ih h1 (by omega) h3 (fun e2 a b => h4 e2 a (by omega))

/-- The inner loop fails when no window is a key. -/
theorem matchLoop_of_none (V : Vocab) (token : WString) (s : Nat) :
    ∀ (n : Nat),
      (∀ e2, s < e2 → e2 ≤ n → V.contains (WordpieceTokenizer.candidate token s e2) = false) →
      WordpieceTokenizer.matchLoop V token s n = none := by
  intro n
  induction n with
  | zero => intro _; rfl
  | succ n ih =>
    intro h
    unfold WordpieceTokenizer.matchLoop
    by_cases hlt : s < n + 1
    · rw [if_pos hlt, h (n + 1) hlt (le_refl _)]
      simp only [Bool.false_eq_true, if_false]
      exact ih (fun e2 a b => h e2 a (by omega))
    · rw [if_neg hlt]

/-- The outer loop does not need more fuel than the distance to the end of
the token. -/
theorem segmentLoop_fuel (V : Vocab) (token : WString) :
    ∀ (f1 f2 start : Nat) (sub : List WString),
      token.length ≤ start + f1 → token.length ≤ start + f2 →
      WordpieceTokenizer.segmentLoop V token f1 start sub =
        WordpieceTokenizer.segmentLoop V token f2 start sub := by
  intro f1
  induction f1 with
  | zero =>
    intro f2 start sub h1 _
    have hs : ¬ start < token.length := by omega
    cases f2 with
    | zero => rfl
    | succ m => simp [WordpieceTokenizer.segmentLoop, hs]
  | succ n ih =>
    intro f2 start sub h1 h2
    by_cases hs : start < token.length
    · cases f2 with
      | zero => omega
      | succ m =>
        unfold WordpieceTokenizer.segmentLoop
        rw [if_pos hs, if_pos hs]
        cases hm : WordpieceTokenizer.matchLoop V token start token.length with
        | none => rfl
        | some r =>
          obtain ⟨c, e⟩ := r
          obtain ⟨a1, _, _, _, _⟩ := matchLoop_some V token start _ c e hm
          exact ih m e (sub ++ [c]) (by omega) (by omega)
    · cases f2 with
      | zero => simp [WordpieceTokenizer.segmentLoop, hs]
      | succ m => simp [WordpieceTokenizer.segmentLoop, hs]

end Tokenizer

namespace Tokenizer

/-! ## The outer loop computes the greedy segmentation -/

theorem segmentLoop_greedy (V : Vocab) (token : WString) :
    ∀ (fuel start : Nat) (sub r : List WString),
      Greedy V token start sub → token.length ≤ start + fuel → start ≤ token.length →
      WordpieceTokenizer.segmentLoop V token fuel start sub = some r →
      Greedy V token token.length r := by
  intro fuel
  induction fuel with
  | zero =>
    intro start sub r hg h1 h2 h
    have hs : start = token.length := by omega
    simp only [WordpieceTokenizer.segmentLoop, Option.some.injEq] at h
    subst h
    rw [← hs]
    exact hg
  | succ n ih =>
    intro start sub r hg h1 h2 h
    unfold WordpieceTokenizer.segmentLoop at h
    by_cases hs : start < token.length
    · rw [if_pos hs] at h
      cases hm : WordpieceTokenizer.matchLoop V token start token.length with
      | none => rw [hm] at h; simp at h
      | some res =>
        obtain ⟨c, e⟩ := res
        rw [hm] at h
        simp only at h
        obtain ⟨a1, a2, a3, a4, a5⟩ := matchLoop_some V token start _ c e hm
        rw [candidate_eq] at a3
        subst a3
        have hg2 : Greedy V token e (sub ++ [piece token start e]) :=
          Greedy.step start e sub hg a1 a2 a4
            (fun e2 b1 b2 => by rw [← candidate_eq]; exact a5 e2 b1 b2)
        exact ih e _ r hg2 (by omega) a2 h
    · rw [if_neg hs] at h
      have hs2 : start = token.length := by omega
      simp only [Option.some.injEq] at h
      subst h
      rw [← hs2]
      exact hg

/-- The loop started at position 0 passes through every state that the
greedy segmentation reaches. -/
theorem segmentLoop_reach (V : Vocab) (token : WString) (s : Nat) (ps : List WString)
    (hg : Greedy V token s ps) :
    s ≤ token.length ∧
    WordpieceTokenizer.segmentLoop V token token.length 0 [] =
      WordpieceTokenizer.segmentLoop V token (token.length - s) s ps := by
  induction hg with
  | start => exact ⟨Nat.zero_le _, rfl⟩
  | step s e ps _ h1 h2 h3 h4 ih =>
    refine ⟨h2, ?_⟩
    rw [ih.2]
    obtain ⟨k, hk⟩ : ∃ k, token.length - s = k + 1 := ⟨token.length - s - 1, by omega⟩
    rw [hk]
    have hm := matchLoop_of_longest V token s e token.length h1 h2
      (by rw [candidate_eq]; exact h3)
      (fun e2 b1 b2 => by rw [candidate_eq]; exact h4 e2 b1 b2)
    rw [candidate_eq] at hm
    have hs : s < token.length := by omega
    conv_lhs => unfold WordpieceTokenizer.segmentLoop
    rw [if_pos hs, hm]
    exact segmentLoop_fuel V token k (token.length - e) e _ (by omega) (by omega)

theorem segmentLoop_blocked (V : Vocab) (token : WString) (s : Nat) (ps : List WString)
    (hg : Greedy V token s ps) (hs : s < token.length)
    (hb : ∀ e, s < e → e ≤ token.length → V.contains (piece token s e) = false) :
    WordpieceTokenizer.segmentLoop V token token.length 0 [] = none := by
  rw [(segmentLoop_reach V token s ps hg).2]
  obtain ⟨k, hk⟩ : ∃ k, token.length - s = k + 1 := ⟨token.length - s - 1, by omega⟩
  rw [hk]
  have hm := matchLoop_of_none V token s token.length
    (fun e2 b1 b2 => by rw [candidate_eq]; exact hb e2 b1 b2)
  unfold WordpieceTokenizer.segmentLoop
  rw [if_pos hs, hm]

theorem rejoin_snoc (ps : List WString) (c : WString) (h : ps ≠ []) :
    rejoin (ps ++ [c]) = rejoin ps ++ c.drop 2 := by
  cases ps with
  | nil => exact absurd rfl h
  | cons p ps0 => simp [rejoin]

theorem greedy_pos (V : Vocab) (token : WString) (s : Nat) (ps : List WString)
    (hg : Greedy V token s ps) : (ps = [] ↔ s = 0) := by
  cases hg with
  | start => simp
  | step s0 e ps0 _ h1 _ _ _ =>
    constructor
    · intro h; simp at h
    · intro h; omega

theorem greedy_rejoin (V : Vocab) (token : WString) (s : Nat) (ps : List WString)
    (hg : Greedy V token s ps) : s ≤ token.length ∧ rejoin ps = token.take s := by
  induction hg with
  | start => simp [rejoin]
  | step s e ps hg0 h1 h2 _ _ ih =>
    refine ⟨h2, ?_⟩
    have hsplit : token.take e = token.take s ++ (token.drop s).take (e - s) := by
      have : e = s + (e - s) := by omega
      conv_lhs => rw [this]
      exact List.take_add _ _ _
    by_cases hs : s = 0
    · have hps : ps = [] := (greedy_pos V token s ps hg0).mpr hs
      subst hps
      simp [rejoin, piece, hs]
    · have hps : ps ≠ [] := fun h => hs ((greedy_pos V token s ps hg0).mp h)
      rw [rejoin_snoc ps _ hps, ih.2, hsplit]
      simp [piece, hs]

theorem greedy_length (V : Vocab) (token : WString) (s : Nat) (ps : List WString)
    (hg : Greedy V token s ps) : (rejoin ps).length = s := by
  obtain ⟨h1, h2⟩ := greedy_rejoin V token s ps hg
  rw [h2, List.length_take]
  omega

theorem greedy_mem (V : Vocab) (token : WString) (s : Nat) (ps : List WString)
    (hg : Greedy V token s ps) : ∀ p ∈ ps, V.contains p = true := by
  induction hg with
  | start => simp
  | step s e ps _ _ _ h3 _ ih =>
    intro p hp
    rcases List.mem_append.mp hp with h | h
    · exact ih p h
    · rw [List.mem_singleton.mp h]; exact h3

/-- Every piece of a greedy segmentation is the longest key window at its
start position. -/
theorem greedy_longest (V : Vocab) (token : WString) (s : Nat) (ps : List WString)
    (hg : Greedy V token s ps) :
    ∀ i, i < ps.length →
      startOf ps i < startOf ps (i + 1) ∧ startOf ps (i + 1) ≤ token.length ∧
      ps[i]? = some (piece token (startOf ps i) (startOf ps (i + 1))) ∧
      ∀ e2, startOf ps (i + 1) < e2 → e2 ≤ token.length →
        V.contains (piece token (startOf ps i) e2) = false := by
  induction hg with
  | start => intro i hi; simp at hi
  | step s e ps hg0 h1 h2 h3 h4 ih =>
    intro i hi
    have hlen : (ps ++ [piece token s e]).length = ps.length + 1 := by simp
    by_cases hlt : i < ps.length
    · have t1 : startOf (ps ++ [piece token s e]) i = startOf ps i := by
        unfold startOf
        rw [List.take_append_of_le_length (by omega)]
      have t2 : startOf (ps ++ [piece token s e]) (i + 1) = startOf ps (i + 1) := by
        unfold startOf
        rw [List.take_append_of_le_length (by omega)]
      have t3 : (ps ++ [piece token s e])[i]? = ps[i]? := List.getElem?_append_left hlt
      rw [t1, t2, t3]
      exact ih i hlt
    · have hi2 : i = ps.length := by omega
      subst hi2
      have t1 : startOf (ps ++ [piece token s e]) ps.length = s := by
        unfold startOf
        rw [List.take_append_of_le_length (le_refl _), List.take_length]
        exact greedy_length V token s ps hg0
      have t2 : startOf (ps ++ [piece token s e]) (ps.length + 1) = e := by
        unfold startOf
        rw [← hlen, List.take_length]
        exact greedy_length V token e _ (Greedy.step s e ps hg0 h1 h2 h3 h4)
      have t3 : (ps ++ [piece token s e])[ps.length]? = some (piece token s e) := by
        simp
      rw [t1, t2, t3]
      exact ⟨h1, h2, rfl, h4⟩

theorem segmentLoop_length (V : Vocab) (token : WString) :
    ∀ (fuel start : Nat) (sub r : List WString),
      WordpieceTokenizer.segmentLoop V token fuel start sub = some r →
      sub.length ≤ r.length := by
  intro fuel
  induction fuel with
  | zero =>
    intro start sub r h
    simp only [WordpieceTokenizer.segmentLoop, Option.some.injEq] at h
    rw [h]
  | succ n ih =>
    intro start sub r h
    unfold WordpieceTokenizer.segmentLoop at h
    by_cases hs : start < token.length
    · rw [if_pos hs] at h
      cases hm : WordpieceTokenizer.matchLoop V token start token.length with
      | none => rw [hm] at h; simp at h
      | some res =>
        obtain ⟨c, e⟩ := res
        rw [hm] at h
        have := ih e _ r h
        simp only [List.length_append, List.length_singleton] at this
        omega
    · rw [if_neg hs] at h
      simp only [Option.some.injEq] at h
      rw [h]

end Tokenizer

namespace Tokenizer

/-! ## The vocabulary during a conversion -/

theorem contains_append_of_ne (V : Vocab) (k unk : WString) (h : k ≠ unk) :
    Vocab.contains (V ++ [(unk, 0)]) k = V.contains k := by
  unfold Vocab.contains
  rw [List.lookup_append]
  have hb : (k == unk) = false := by simpa using h
  have : List.lookup k [(unk, (0 : Nat))] = none := by
    simp [List.lookup, hb]
  rw [this]
  cases List.lookup k V <;> rfl

theorem ext_contains {V : Vocab} {unk : WString} {V2 : Vocab} (h : Ext V unk V2)
    (k : WString) (hk : k ≠ unk) : V2.contains k = V.contains k := by
  rcases h with h | ⟨_, h⟩
  · rw [h]
  · rw [h]; exact contains_append_of_ne V k unk hk

theorem ext_refl (V : Vocab) (unk : WString) : Ext V unk V := Or.inl rfl

/-- Indexing with a marker or key returns the id it has in the initial
vocabulary, and leaves the vocabulary in one of its two possible states. -/
theorem ext_index {V : Vocab} {unk : WString} {V2 : Vocab} (h : Ext V unk V2)
    (t : WString) (ht : Known V unk t) :
    (V2.index t).1 = idOf V t ∧ Ext V unk (V2.index t).2 := by
  unfold idOf
  rcases h with h | ⟨hu, h⟩
  · subst h
    refine ⟨rfl, ?_⟩
    unfold Vocab.index
    cases hl : List.lookup t V2 with
    | some v => exact Or.inl rfl
    | none =>
      have hc : V2.contains t = false := by simp [Vocab.contains, hl]
      rcases ht with ht | ht
      · subst ht
        exact Or.inr ⟨hc, rfl⟩
      · rw [hc] at ht; exact absurd ht (by simp)
  · subst h
    unfold Vocab.index
    cases hl : List.lookup t V with
    | some v =>
      have : List.lookup t (V ++ [(unk, 0)]) = some v := by
        rw [List.lookup_append, hl]; rfl
      rw [this]
      exact ⟨rfl, Or.inr ⟨hu, rfl⟩⟩
    | none =>
      have hc : V.contains t = false := by simp [Vocab.contains, hl]
      have htu : t = unk := by
        rcases ht with ht | ht
        · exact ht
        · rw [hc] at ht; exact absurd ht (by simp)
      subst htu
      have : List.lookup t (V ++ [(t, 0)]) = some 0 := by
        rw [List.lookup_append, hl]; simp [List.lookup]
      rw [this]
      exact ⟨rfl, Or.inr ⟨hu, rfl⟩⟩

theorem convertTokensToIdsLoop_eq (V : Vocab) (unk : WString) :
    ∀ (tokens : List WString) (V2 : Vocab) (ret : List Nat),
      Ext V unk V2 → (∀ t ∈ tokens, Known V unk t) →
      (FullTokenizer.convertTokensToIdsLoop tokens V2 ret).1 = ret ++ tokens.map (idOf V) := by
  intro tokens
  induction tokens with
  | nil => intro V2 ret _ _; simp [FullTokenizer.convertTokensToIdsLoop]
  | cons t ts ih =>
    intro V2 ret hext hk
    obtain ⟨h1, h2⟩ := ext_index hext t (hk t (List.mem_cons_self _ _))
    unfold FullTokenizer.convertTokensToIdsLoop
    rw [ih _ _ h2 (fun x hx => hk x (List.mem_cons_of_mem _ hx)), h1]
    simp

/-! ## WordPiece reads the vocabulary only at the candidates -/

theorem matchLoop_congr (V V2 : Vocab) (token : WString) (s : Nat)
    (h : ∀ e, s < e → V2.contains (WordpieceTokenizer.candidate token s e) =
      V.contains (WordpieceTokenizer.candidate token s e)) :
    ∀ n, WordpieceTokenizer.matchLoop V2 token s n = WordpieceTokenizer.matchLoop V token s n := by
  intro n
  induction n with
  | zero => rfl
  | succ n ih =>
    unfold WordpieceTokenizer.matchLoop
    by_cases hs : s < n + 1
    · rw [if_pos hs, if_pos hs, h (n + 1) hs, ih]
    · rw [if_neg hs, if_neg hs]

theorem segmentLoop_congr (V V2 : Vocab) (token : WString)
    (h : ∀ s e, s < e → V2.contains (WordpieceTokenizer.candidate token s e) =
      V.contains (WordpieceTokenizer.candidate token s e)) :
    ∀ (fuel start : Nat) (sub : List WString),
      WordpieceTokenizer.segmentLoop V2 token fuel start sub =
        WordpieceTokenizer.segmentLoop V token fuel start sub := by
  intro fuel
  induction fuel with
  | zero => intro start sub; rfl
  | succ n ih =>
    intro start sub
    unfold WordpieceTokenizer.segmentLoop
    rw [matchLoop_congr V V2 token start (h start)]
    by_cases hs : start < token.length
    · rw [if_pos hs, if_pos hs]
      cases WordpieceTokenizer.matchLoop V token start token.length with
      | none => rfl
      | some r => exact ih _ _
    · rw [if_neg hs, if_neg hs]

theorem wordpiece_congr (S : WString) (V V2 : Vocab) (unk : WString) (maxChars : Nat)
    (w : WString)
    (h : ∀ t ∈ whitespaceTokenize S w, ∀ s e, s < e →
      V2.contains (WordpieceTokenizer.candidate t s e) =
        V.contains (WordpieceTokenizer.candidate t s e)) :
    WordpieceTokenizer.tokenize S V2 unk maxChars w =
      WordpieceTokenizer.tokenize S V unk maxChars w := by
  unfold WordpieceTokenizer.tokenize
  congr 1
  apply List.map_congr_left
  intro t ht
  unfold WordpieceTokenizer.tokenizeWord
  rw [segmentLoop_congr V V2 t (h t ht)]

theorem tokenizeWord_known (V : Vocab) (unk : WString) (maxChars : Nat) (t : WString) :
    ∀ p ∈ WordpieceTokenizer.tokenizeWord V unk maxChars t, Known V unk p := by
  intro p hp
  unfold WordpieceTokenizer.tokenizeWord at hp
  rcases List.mem_append.mp hp with h | h
  · by_cases hm : maxChars < t.length
    · rw [if_pos hm] at h
      exact Or.inl (List.mem_singleton.mp h)
    · rw [if_neg hm] at h
      simp at h
  · cases hseg : WordpieceTokenizer.segmentLoop V t t.length 0 [] with
    | none =>
      rw [hseg] at h
      exact Or.inl (List.mem_singleton.mp h)
    | some r =>
      rw [hseg] at h
      have hg : Greedy V t t.length r :=
        segmentLoop_greedy V t t.length 0 [] r Greedy.start (by omega) (by omega) hseg
      exact Or.inr (greedy_mem V t _ r hg p h)

theorem wordpiece_known (S : WString) (V : Vocab) (unk : WString) (maxChars : Nat)
    (w : WString) :
    ∀ p ∈ WordpieceTokenizer.tokenize S V unk maxChars w, Known V unk p := by
  intro p hp
  unfold WordpieceTokenizer.tokenize at hp
  rw [List.mem_flatten] at hp
  obtain ⟨l, hl, hpl⟩ := hp
  rw [List.mem_map] at hl
  obtain ⟨t, _, rfl⟩ := hl
  exact tokenizeWord_known V unk maxChars t p hpl

end Tokenizer

namespace Tokenizer

/-! ## The loops of `tokenizeToIds(text, size)` in closed form -/

theorem idsInner_spec (V : Vocab) (unk : WString) (size : Int) :
    ∀ (subs : List WString) (st : FullTokenizer.IdsState),
      Ext V unk st.vocab → (∀ p ∈ subs, Known V unk p) →
      ∃ V2, Ext V unk V2 ∧ FullTokenizer.idsInner size subs st =
        if st.i < size ∧ size - st.i ≤ (subs.length : Int) then
          FullTokenizer.Flow.done
            ⟨V2, st.out ++ (subs.map (idOf V)).take (size - st.i).toNat, size⟩
        else
          FullTokenizer.Flow.next ⟨V2, st.out ++ subs.map (idOf V), st.i + subs.length⟩ := by
  intro subs
  induction subs with
  | nil =>
    intro st hext _
    refine ⟨st.vocab, hext, ?_⟩
    have hc : ¬ (st.i < size ∧ size - st.i ≤ (([] : List WString).length : Int)) := by
      simp only [List.length_nil, Nat.cast_zero]
      omega
    rw [if_neg hc]
    cases st
    simp [FullTokenizer.idsInner]
  | cons sub rest ih =>
    intro st hext hk
    obtain ⟨h1, h2⟩ := ext_index hext sub (hk sub (List.mem_cons_self _ _))
    have hk2 : ∀ p ∈ rest, Known V unk p := fun p hp => hk p (List.mem_cons_of_mem _ hp)
    unfold FullTokenizer.idsInner
    simp only [List.length_cons, Nat.cast_add, Nat.cast_one, List.map_cons]
    rw [h1]
    by_cases hi : st.i + 1 = size
    · refine ⟨(st.vocab.index sub).2, h2, ?_⟩
      have hc : st.i < size ∧ size - st.i ≤ (rest.length : Int) + 1 := by
        constructor <;> omega
      have ht : (size - st.i).toNat = 1 := by omega
      rw [if_pos hi, if_pos hc, ht, hi]
      simp
    · obtain ⟨V2, e, hI⟩ := ih ⟨(st.vocab.index sub).2, st.out ++ [idOf V sub], st.i + 1⟩ h2 hk2
      refine ⟨V2, e, ?_⟩
      rw [if_neg hi, hI]
      simp only
      by_cases hc : st.i < size ∧ size - st.i ≤ (rest.length : Int) + 1
      · have hc2 : st.i + 1 < size ∧ size - (st.i + 1) ≤ (rest.length : Int) := by
          constructor <;> omega
        have ht : (size - st.i).toNat = (size - (st.i + 1)).toNat + 1 := by omega
        rw [if_pos hc, if_pos hc2, ht]
        simp
      · have hc2 : ¬ (st.i + 1 < size ∧ size - (st.i + 1) ≤ (rest.length : Int)) := by
          intro h
          apply hc
          constructor <;> omega
        rw [if_neg hc, if_neg hc2]
        simp only [List.append_assoc, List.singleton_append, add_assoc]
        rw [add_comm (1 : Int)]

theorem truncLen_zero (size i : Int) : truncLen size i 0 = 0 := by
  unfold truncLen
  split <;> simp

theorem truncLen_stop (size i : Int) (l1 l2 : Nat) (h : i < size ∧ size - i ≤ (l1 : Int)) :
    truncLen size i (l1 + l2) = (size - i).toNat ∧ (size - i).toNat ≤ l1 ∧
      i + ((size - i).toNat : Int) = size := by
  unfold truncLen
  rw [if_pos h.1]
  omega

theorem truncLen_add (size i : Int) (l1 l2 : Nat) (h : ¬ (i < size ∧ size - i ≤ (l1 : Int))) :
    truncLen size i (l1 + l2) = l1 + truncLen size (i + l1) l2 := by
  unfold truncLen
  by_cases h1 : i < size
  · have h2 : i + (l1 : Int) < size := by omega
    rw [if_pos h1, if_pos h2]
    omega
  · have h2 : ¬ i + (l1 : Int) < size := by omega
    rw [if_neg h1, if_neg h2]

theorem idStream_cons (S : WString) (V : Vocab) (unk : WString) (maxChars : Nat)
    (w : WString) (ws : List WString) :
    idStream S V unk maxChars (w :: ws) =
      (WordpieceTokenizer.tokenize S V unk maxChars w).map (idOf V) ++
        idStream S V unk maxChars ws := by
  simp [idStream]

/-- The nested loops append the first ids of the stream, as many as
`truncLen` says, provided the insertions made by `operator[]` do not change
the WordPiece result of any token. -/
theorem idsOuter_spec (S : WString) (V : Vocab) (unk : WString) (maxChars : Nat)
    (size : Int) :
    ∀ (ws : List WString) (st : FullTokenizer.IdsState),
      Ext V unk st.vocab →
      (∀ V2, Ext V unk V2 → ∀ w ∈ ws, WordpieceTokenizer.tokenize S V2 unk maxChars w =
        WordpieceTokenizer.tokenize S V unk maxChars w) →
      ∃ V2, Ext V unk V2 ∧ FullTokenizer.idsOuter S unk maxChars size ws st =
        ⟨V2,
         st.out ++ (idStream S V unk maxChars ws).take
           (truncLen size st.i (idStream S V unk maxChars ws).length),
         st.i + truncLen size st.i (idStream S V unk maxChars ws).length⟩ := by
  intro ws
  induction ws with
  | nil =>
    intro st hext _
    refine ⟨st.vocab, hext, ?_⟩
    cases st
    simp [FullTokenizer.idsOuter, idStream, truncLen_zero]
  | cons w rest ih =>
    intro st hext hst
    have hw := hst st.vocab hext w (List.mem_cons_self _ _)
    have hst2 : ∀ V2, Ext V unk V2 → ∀ x ∈ rest,
        WordpieceTokenizer.tokenize S V2 unk maxChars x =
          WordpieceTokenizer.tokenize S V unk maxChars x :=
      fun V2 h2 x hx => hst V2 h2 x (List.mem_cons_of_mem _ hx)
    obtain ⟨V2, e2, hI⟩ := idsInner_spec V unk size
      (WordpieceTokenizer.tokenize S V unk maxChars w) st hext
      (wordpiece_known S V unk maxChars w)
    unfold FullTokenizer.idsOuter
    rw [hw, hI, idStream_cons, List.length_append, List.length_map]
    by_cases hc : st.i < size ∧
        size - st.i ≤ ((WordpieceTokenizer.tokenize S V unk maxChars w).length : Int)
    · rw [if_pos hc]
      simp only
      obtain ⟨t1, t2, t3⟩ := truncLen_stop size st.i
        (WordpieceTokenizer.tokenize S V unk maxChars w).length
        (idStream S V unk maxChars rest).length hc
      refine ⟨V2, e2, ?_⟩
      rw [t1, t3, List.take_append_of_le_length (by simpa using t2)]
    · rw [if_neg hc]
      simp only
      obtain ⟨V3, e3, hO⟩ := ih
        ⟨V2, st.out ++ (WordpieceTokenizer.tokenize S V unk maxChars w).map (idOf V),
          st.i + (WordpieceTokenizer.tokenize S V unk maxChars w).length⟩ e2 hst2
      refine ⟨V3, e3, ?_⟩
      rw [hO, truncLen_add size st.i _ _ hc]
      simp only [List.append_assoc, Nat.cast_add, add_assoc]
      congr 2
      have := @List.take_append _ ((WordpieceTokenizer.tokenize S V unk maxChars w).map (idOf V))
        (idStream S V unk maxChars rest)
        (truncLen size (st.i + (WordpieceTokenizer.tokenize S V unk maxChars w).length)
          (idStream S V unk maxChars rest).length)
      rw [List.length_map] at this
      rw [this]

end Tokenizer

namespace Tokenizer

/-! ## Punctuation is isolated in the tokens of the basic tokenizer -/

theorem appendToLast_snoc (init : List WString) (last : WString) (ch : Nat) :
    BasicTokenizer.appendToLast (init ++ [last]) ch = init ++ [last ++ [ch]] := by
  induction init with
  | nil => rfl
  | cons a t ih =>
    cases t with
    | nil => rfl
    | cons b t2 =>
      have : BasicTokenizer.appendToLast (a :: b :: t2 ++ [last]) ch =
          a :: BasicTokenizer.appendToLast (b :: t2 ++ [last]) ch := rfl
      simp only [List.cons_append] at this ih ⊢
      rw [this, ih]

/-- Every token of `runSplitOnPunc` is a single codepoint or free of
punctuation. -/
theorem runSplitOnPuncLoop_iso (U : Utf8proc) :
    ∀ (text : WString) (startNewWord : Bool) (output : List WString),
      (∀ x ∈ output, x.length ≤ 1 ∨ ∀ c ∈ x, BasicTokenizer.isPunctuation U c = false) →
      (startNewWord = false → ∃ init last, output = init ++ [last] ∧
        ∀ c ∈ last, BasicTokenizer.isPunctuation U c = false) →
      ∀ x ∈ BasicTokenizer.runSplitOnPuncLoop U text startNewWord output,
        x.length ≤ 1 ∨ ∀ c ∈ x, BasicTokenizer.isPunctuation U c = false := by
  intro text
  induction text with
  | nil => intro snw output h1 _; simpa [BasicTokenizer.runSplitOnPuncLoop] using h1
  | cons ch rest ih =>
    intro snw output h1 h2
    unfold BasicTokenizer.runSplitOnPuncLoop
    by_cases hp : BasicTokenizer.isPunctuation U ch = true
    · rw [if_pos hp]
      apply ih
      · intro x hx
        rcases List.mem_append.mp hx with h | h
        · exact h1 x h
        · rw [List.mem_singleton.mp h]; exact Or.inl (by simp)
      · intro h; exact absurd h (by simp)
    · rw [if_neg hp]
      have hp2 : BasicTokenizer.isPunctuation U ch = false := by simpa using hp
      cases snw with
      | true =>
        simp only [if_true]
        rw [appendToLast_snoc]
        apply ih
        · intro x hx
          rcases List.mem_append.mp hx with h | h
          · exact h1 x h
          · rw [List.mem_singleton.mp h]; exact Or.inl (by simp)
        · intro _
          exact ⟨output, [] ++ [ch], rfl, by simpa using hp2⟩
      | false =>
        obtain ⟨init, last, e, hl⟩ := h2 rfl
        subst e
        simp only [Bool.false_eq_true, if_false]
        rw [appendToLast_snoc]
        have hl2 : ∀ c ∈ last ++ [ch], BasicTokenizer.isPunctuation U c = false := by
          intro c hc
          rcases List.mem_append.mp hc with h | h
          · exact hl c h
          · rw [List.mem_singleton.mp h]; exact hp2
        apply ih
        · intro x hx
          rcases List.mem_append.mp hx with h | h
          · exact h1 x (List.mem_append_left _ h)
          · rw [List.mem_singleton.mp h]; exact Or.inr hl2
        · intro _
          exact ⟨init, last ++ [ch], rfl, hl2⟩

theorem chain_of_iso (U : Utf8proc) (S : WString) (x : WString)
    (h : x.length ≤ 1 ∨ ∀ c ∈ x, BasicTokenizer.isPunctuation U c = false) :
    List.Chain' (Separated U S) x := by
  rcases h with h | h
  · cases x with
    | nil => exact List.chain'_nil
    | cons a t =>
      cases t with
      | nil => exact List.chain'_singleton a
      | cons b t2 => simp at h
  · induction x with
    | nil => exact List.chain'_nil
    | cons a t ih =>
      rw [List.chain'_cons']
      refine ⟨?_, ih (fun c hc => h c (List.mem_cons_of_mem _ hc))⟩
      intro y hy hor
      have ha := h a (List.mem_cons_self _ _)
      have hyt : y ∈ t := List.mem_of_mem_head? hy
      have hb := h y (List.mem_cons_of_mem _ hyt)
      rcases hor with h3 | h3
      · rw [ha] at h3; exact absurd h3 (by simp)
      · rw [hb] at h3; exact absurd h3 (by simp)

theorem chain_snoc_space (U : Utf8proc) (S : WString) (h32 : 32 ∈ S) (x : WString)
    (h : List.Chain' (Separated U S) x) : List.Chain' (Separated U S) (x ++ [32]) := by
  apply List.Chain'.append h (List.chain'_singleton 32)
  intro a _ b hb _
  simp only [List.head?_cons, Option.mem_def, Option.some.injEq] at hb
  subst hb
  exact Or.inr (isStripChar_space h32)

theorem chain_join_all (U : Utf8proc) (S : WString) (h32 : 32 ∈ S) :
    ∀ (ys : List WString),
      (∀ x ∈ ys, x.length ≤ 1 ∨ ∀ c ∈ x, BasicTokenizer.isPunctuation U c = false) →
      List.Chain' (Separated U S) ((ys.map (fun w => w ++ [32])).flatten) := by
  intro ys
  induction ys with
  | nil => intro _; exact List.chain'_nil
  | cons y rest ih =>
    intro h
    simp only [List.map_cons, List.flatten_cons]
    apply List.Chain'.append
    · exact chain_snoc_space U S h32 y (chain_of_iso U S y (h y (List.mem_cons_self _ _)))
    · exact ih (fun x hx => h x (List.mem_cons_of_mem _ hx))
    · intro a ha b _ _
      simp only [List.getLast?_append, List.getLast?_singleton, Option.mem_def] at ha
      have : a = 32 := by
        simpa using ha.symm
      subst this
      exact Or.inl (isStripChar_space h32)

theorem chain_join (U : Utf8proc) (S : WString) (h32 : 32 ∈ S) (xs : List WString)
    (h : ∀ x ∈ xs, x.length ≤ 1 ∨ ∀ c ∈ x, BasicTokenizer.isPunctuation U c = false) :
    List.Chain' (Separated U S) (BasicTokenizer.join xs) :=
  chain_join_all U S h32 xs.dropLast (fun x hx => h x (List.mem_of_mem_dropLast hx))

/-- The tokens cut out by `split` keep the separation of their text and
contain no delimiter. -/
theorem splitLoop_good (U : Utf8proc) (S : WString) :
    ∀ (text cur : WString), List.Chain' (Separated U S) (cur ++ text) →
      (∀ c ∈ cur, isStripChar S c = false) →
      ∀ t ∈ splitLoop S text cur,
        List.Chain' (Separated U S) t ∧ ∀ c ∈ t, isStripChar S c = false := by
  intro text
  induction text with
  | nil =>
    intro cur h1 h2 t ht
    simp only [splitLoop, List.mem_singleton] at ht
    subst ht
    exact ⟨by simpa using h1, h2⟩
  | cons c rest ih =>
    intro cur h1 h2 t ht
    unfold splitLoop at ht
    by_cases hc : isStripChar S c = true
    · rw [if_pos hc] at ht
      rcases List.mem_cons.mp ht with h | h
      · subst h
        exact ⟨h1.left_of_append, h2⟩
      · have h3 : List.Chain' (Separated U S) (c :: rest) := h1.right_of_append
        exact ih [] (by simpa using h3.tail) (by simp) t h
    · rw [if_neg hc] at ht
      have hc2 : isStripChar S c = false := by simpa using hc
      apply ih (cur ++ [c]) (by simpa using h1) _ t ht
      intro x hx
      rcases List.mem_append.mp hx with h | h
      · exact h2 x h
      · rw [List.mem_singleton.mp h]; exact hc2

theorem whitespaceTokenize_good (U : Utf8proc) (S : WString) (text : WString)
    (h : List.Chain' (Separated U S) text) :
    ∀ t ∈ whitespaceTokenize S text,
      List.Chain' (Separated U S) t ∧ ∀ c ∈ t, isStripChar S c = false := by
  intro t ht
  unfold whitespaceTokenize at ht
  split at ht
  · simp at ht
  · exact splitLoop_good U S text [] (by simpa using h) (by simp) t ht

theorem basic_tokens_good (U : Utf8proc) (S : WString) (h32 : 32 ∈ S) (doLowerCase : Bool)
    (text : List Nat) :
    ∀ w ∈ BasicTokenizer.tokenize U S doLowerCase text,
      List.Chain' (Separated U S) w ∧ ∀ c ∈ w, isStripChar S c = false := by
  unfold BasicTokenizer.tokenize
  apply whitespaceTokenize_good
  apply chain_join U S h32
  intro x hx
  rw [List.mem_flatten] at hx
  obtain ⟨l, hl, hxl⟩ := hx
  rw [List.mem_map] at hl
  obtain ⟨tok, _, rfl⟩ := hl
  exact runSplitOnPuncLoop_iso U _ true [] (by simp) (by simp) x hxl

/-- A delimiter-free separated text of two or more codepoints has no
punctuation. -/
theorem good_no_punct (U : Utf8proc) (S : WString) :
    ∀ (t : WString), List.Chain' (Separated U S) t → (∀ c ∈ t, isStripChar S c = false) →
      2 ≤ t.length → ∀ c ∈ t, BasicTokenizer.isPunctuation U c = false := by
  intro t
  induction t with
  | nil => intro _ _ h; simp at h
  | cons a t ih =>
    intro hch hns hlen
    cases t with
    | nil => simp at hlen
    | cons b t2 =>
      rw [List.chain'_cons] at hch
      have ha := hns a (List.mem_cons_self _ _)
      have hb := hns b (List.mem_cons_of_mem _ (List.mem_cons_self _ _))
      have hsep := hch.1
      have hpa : BasicTokenizer.isPunctuation U a = false := by
        by_contra hcon
        have : BasicTokenizer.isPunctuation U a = true := by simpa using hcon
        rcases hsep (Or.inl this) with h | h
        · rw [ha] at h; exact absurd h (by simp)
        · rw [hb] at h; exact absurd h (by simp)
      have hpb : BasicTokenizer.isPunctuation U b = false := by
        by_contra hcon
        have : BasicTokenizer.isPunctuation U b = true := by simpa using hcon
        rcases hsep (Or.inr this) with h | h
        · rw [ha] at h; exact absurd h (by simp)
        · rw [hb] at h; exact absurd h (by simp)
      intro c hc
      rcases List.mem_cons.mp hc with h | h
      · rw [h]; exact hpa
      · cases t2 with
        | nil =>
          rw [List.mem_singleton.mp h]; exact hpb
        | cons d t3 =>
          exact ih hch.2 (fun x hx => hns x (List.mem_cons_of_mem _ hx)) (by simp) c h

/-- No lookup key of such a token is the marker. -/
theorem candidate_ne_marker (U : Utf8proc) (S : WString) (unk : WString)
    (hunk : MarkerShape U unk) (t : WString)
    (hch : List.Chain' (Separated U S) t) (hns : ∀ c ∈ t, isStripChar S c = false)
    (s e : Nat) : WordpieceTokenizer.candidate t s e ≠ unk := by
  obtain ⟨hlen, ⟨c, hc, hp⟩, hmark⟩ := hunk
  intro heq
  rw [candidate_eq] at heq
  by_cases hs : s = 0
  · subst hs
    have h1 : unk = t.take e := by
      rw [← heq]; simp [piece]
    have h2 : List.Chain' (Separated U S) unk := by rw [h1]; exact hch.take e
    have h3 : ∀ x ∈ unk, isStripChar S x = false := by
      intro x hx
      rw [h1] at hx
      exact hns x (List.mem_of_mem_take hx)
    have := good_no_punct U S unk h2 h3 hlen c hc
    rw [hp] at this
    exact absurd this (by simp)
  · apply hmark
    rw [← heq]
    simp [piece, hs]

/-- The zero entry that `operator[]` may insert for the marker does not
change the WordPiece result of any token of the basic tokenizer. -/
theorem wordpiece_stable (U : Utf8proc) (S : WString) (doLowerCase : Bool)
    (V : Vocab) (unk : WString) (hunk : MarkerSafe U S V unk) (maxChars : Nat)
    (text : List Nat) :
    ∀ V2, Ext V unk V2 → ∀ w ∈ BasicTokenizer.tokenize U S doLowerCase text,
      WordpieceTokenizer.tokenize S V2 unk maxChars w =
        WordpieceTokenizer.tokenize S V unk maxChars w := by
  intro V2 hext w hw
  rcases hunk with hin | ⟨h32, hshape⟩
  · rcases hext with h | ⟨h, _⟩
    · rw [h]
    · rw [hin] at h
      exact absurd h (by simp)
  · obtain ⟨g1, _⟩ := basic_tokens_good U S h32 doLowerCase text w hw
    apply wordpiece_congr
    intro t ht s e _
    obtain ⟨k1, k2⟩ := whitespaceTokenize_good U S w g1 t ht
    exact ext_contains hext _ (candidate_ne_marker U S unk hshape t k1 k2 s e)

end Tokenizer

namespace Tokenizer

/-! ## The buffer-filling loops follow the loops of `tokenizeToIds(text, size)` -/

theorem sim_step (start : Int) (ids0 mask0 : Int → Int) (b : FullTokenizer.BufState)
    (st : FullTokenizer.IdsState) (h : Sim start ids0 mask0 b st) (sub : WString) :
    Sim start ids0 mask0
      ⟨(b.vocab.index sub).2,
       Function.update b.input_ids b.i ((b.vocab.index sub).1 : Int),
       Function.update b.mask b.i 1, b.i + 1, b.writes ++ [b.i]⟩
      ⟨(st.vocab.index sub).2, st.out ++ [(st.vocab.index sub).1], st.i + 1⟩ := by
  obtain ⟨h1, h2, h3, h4, h5, h6⟩ := h
  have hlen : (st.out ++ [(st.vocab.index sub).1]).length = st.out.length + 1 := by simp
  refine ⟨by simp only [h1], by simp only [h2, add_assoc], ?_, ?_, ?_, ?_⟩
  · simp only [hlen, h3, Nat.cast_add, Nat.cast_one]
  · simp only [hlen, List.range_succ, List.map_append, List.map_cons, List.map_nil, h4, h2, h3]
  · intro p
    simp only [hlen, Nat.cast_add, Nat.cast_one]
    by_cases hp : p = b.i
    · subst hp
      rw [Function.update_same]
      have hc : start ≤ b.i ∧ b.i < start + (↑st.out.length + 1) := by
        constructor <;> omega
      have hidx : (b.i - start).toNat = st.out.length := by omega
      rw [if_pos hc, hidx, h1]
      simp
    · rw [Function.update_noteq hp, h5 p]
      by_cases hc : start ≤ p ∧ p < start + ↑st.out.length
      · have hc2 : start ≤ p ∧ p < start + (↑st.out.length + 1) := by
          constructor <;> omega
        have hidx : (p - start).toNat < st.out.length := by omega
        rw [if_pos hc, if_pos hc2]
        simp [List.getD_eq_getElem?_getD, List.getElem?_append_left hidx]
      · have hc2 : ¬ (start ≤ p ∧ p < start + (↑st.out.length + 1)) := by
          intro hcon
          apply hc
          constructor <;> omega
        rw [if_neg hc, if_neg hc2]
  · intro p
    simp only [hlen, Nat.cast_add, Nat.cast_one]
    by_cases hp : p = b.i
    · subst hp
      rw [Function.update_same]
      have hc : start ≤ b.i ∧ b.i < start + (↑st.out.length + 1) := by
        constructor <;> omega
      rw [if_pos hc]
    · rw [Function.update_noteq hp, h6 p]
      by_cases hc : start ≤ p ∧ p < start + ↑st.out.length
      · have hc2 : start ≤ p ∧ p < start + (↑st.out.length + 1) := by
          constructor <;> omega
        rw [if_pos hc, if_pos hc2]
      · have hc2 : ¬ (start ≤ p ∧ p < start + (↑st.out.length + 1)) := by
          intro hcon
          apply hc
          constructor <;> omega
        rw [if_neg hc, if_neg hc2]

theorem bufInner_sim (start : Int) (ids0 mask0 : Int → Int) (size : Int) :
    ∀ (subs : List WString) (b : FullTokenizer.BufState) (st : FullTokenizer.IdsState),
      Sim start ids0 mask0 b st →
      FlowSim start ids0 mask0 (FullTokenizer.bufInner size subs b)
        (FullTokenizer.idsInner (size - start) subs st) := by
  intro subs
  induction subs with
  | nil => intro b st h; exact h
  | cons sub rest ih =>
    intro b st h
    have hstep := sim_step start ids0 mask0 b st h sub
    have hi : b.i = start + st.i := h.2.1
    unfold FullTokenizer.bufInner FullTokenizer.idsInner
    simp only
    by_cases hc : b.i + 1 = size
    · have hc2 : st.i + 1 = size - start := by omega
      rw [if_pos hc, if_pos hc2]
      exact hstep
    · have hc2 : ¬ st.i + 1 = size - start := by omega
      rw [if_neg hc, if_neg hc2]
      exact ih _ _ hstep

theorem bufOuter_sim (S : WString) (unk : WString) (maxChars : Nat) (start : Int)
    (ids0 mask0 : Int → Int) (size : Int) :
    ∀ (ws : List WString) (b : FullTokenizer.BufState) (st : FullTokenizer.IdsState),
      Sim start ids0 mask0 b st →
      Sim start ids0 mask0 (FullTokenizer.bufOuter S unk maxChars size ws b)
        (FullTokenizer.idsOuter S unk maxChars (size - start) ws st) := by
  intro ws
  induction ws with
  | nil => intro b st h; exact h
  | cons w rest ih =>
    intro b st h
    have hv : b.vocab = st.vocab := h.1
    have hin := bufInner_sim start ids0 mask0 size
      (WordpieceTokenizer.tokenize S st.vocab unk maxChars w) b st h
    unfold FullTokenizer.bufOuter FullTokenizer.idsOuter
    rw [hv]
    cases hb : FullTokenizer.bufInner size
        (WordpieceTokenizer.tokenize S st.vocab unk maxChars w) b with
    | next b1 =>
      cases hs : FullTokenizer.idsInner (size - start)
          (WordpieceTokenizer.tokenize S st.vocab unk maxChars w) st with
      | next st1 =>
        rw [hb, hs] at hin
        exact ih b1 st1 hin
      | done st1 =>
        rw [hb, hs] at hin
        exact absurd hin (by simp [FlowSim])
    | done b1 =>
      cases hs : FullTokenizer.idsInner (size - start)
          (WordpieceTokenizer.tokenize S st.vocab unk maxChars w) st with
      | next st1 =>
        rw [hb, hs] at hin
        exact absurd hin (by simp [FlowSim])
      | done st1 =>
        rw [hb, hs] at hin
        exact hin

theorem sim_init (V : Vocab) (start : Int) (ids0 mask0 : Int → Int) :
    Sim start ids0 mask0 ⟨V, ids0, mask0, start, []⟩ ⟨V, [], 0⟩ := by
  refine ⟨rfl, by simp, by simp, by simp, ?_, ?_⟩
  · intro p
    have hc : ¬ (start ≤ p ∧ p < start + ((([] : List Nat).length : Nat) : Int)) := by
      simp only [List.length_nil, Nat.cast_zero]
      omega
    simp only
    rw [if_neg hc]
  · intro p
    have hc : ¬ (start ≤ p ∧ p < start + ((([] : List Nat).length : Nat) : Int)) := by
      simp only [List.length_nil, Nat.cast_zero]
      omega
    simp only
    rw [if_neg hc]

/-! ## The two conversions in closed form -/

theorem unboundedIds_eq (U : Utf8proc) (S : WString) (doLowerCase : Bool) (V : Vocab)
    (unk : WString) (maxChars : Nat) (text : List Nat) :
    unboundedIds U S doLowerCase V unk maxChars text =
      idStream S V unk maxChars (BasicTokenizer.tokenize U S doLowerCase text) := by
  unfold unboundedIds FullTokenizer.convertTokensToIds
  rw [convertTokensToIdsLoop_eq V unk _ V [] (ext_refl V unk)]
  · simp [idStream, FullTokenizer.tokenize]
  · intro t ht
    unfold FullTokenizer.tokenize at ht
    rw [List.mem_flatten] at ht
    obtain ⟨l, hl, htl⟩ := ht
    rw [List.mem_map] at hl
    obtain ⟨w, _, rfl⟩ := hl
    exact wordpiece_known S V unk maxChars w t htl

/-- The vector returned by `tokenizeToIds(text, size)`: the first ids of the
unbounded sequence, as many as `truncLen` says. -/
theorem tokenizeToIds_spec (U : Utf8proc) (S : WString) (doLowerCase : Bool) (V : Vocab)
    (unk : WString) (maxChars : Nat) (text : List Nat) (size : Int)
    (hunk : MarkerSafe U S V unk) :
    ∃ V2, Ext V unk V2 ∧
      FullTokenizer.tokenizeToIds U S doLowerCase V unk maxChars text size =
        ⟨V2,
         (unboundedIds U S doLowerCase V unk maxChars text).take
           (truncLen size 0 (unboundedIds U S doLowerCase V unk maxChars text).length),
         truncLen size 0 (unboundedIds U S doLowerCase V unk maxChars text).length⟩ := by
  obtain ⟨V2, e, h⟩ := idsOuter_spec S V unk maxChars size
    (BasicTokenizer.tokenize U S doLowerCase text) ⟨V, [], 0⟩ (ext_refl V unk)
    (wordpiece_stable U S doLowerCase V unk hunk maxChars text)
  refine ⟨V2, e, ?_⟩
  unfold FullTokenizer.tokenizeToIds
  rw [h, unboundedIds_eq]
  simp

end Tokenizer

namespace Tokenizer

/-! ## The text `hello hello` -/

theorem basic_hello_hello (U : Utf8proc) (S : WString)
    (hU : AsciiSound U) (h32 : 32 ∈ S) (hS : ∀ c ∈ S, c ≤ 32) :
    BasicTokenizer.tokenize U S true [104, 101, 108, 108, 111, 32, 104, 101, 108, 108, 111]
      = [[104, 101, 108, 108, 111], []] := by
  have e1 := isStripChar_space h32
  have e2 := isStripChar_above hS
  have c1 := hU.category_ascii
  have c2 := hU.tolower_ascii
  unfold BasicTokenizer.tokenize
  rw [convertToUnicode_ascii hU _ (by decide)]
  simp [BasicTokenizer.cleanText, BasicTokenizer.isControol, BasicTokenizer.isWhitespace, c1,
    asciiCategory, BasicTokenizer.tokenizeChineseChars, BasicTokenizer.isChineseChar,
    whitespaceTokenize, strip, e1, e2, split, splitLoop, BasicTokenizer.splitToken, tolower,
    c2, asciiLower]
  rw [runStripAccents_ascii hU _ (by decide)]
  simp [BasicTokenizer.runSplitOnPunc, BasicTokenizer.runSplitOnPuncLoop,
    BasicTokenizer.isPunctuation, c1, asciiCategory, BasicTokenizer.appendToLast,
    BasicTokenizer.join, e1, e2, splitLoop]

theorem wordpiece_hello (S : WString) (maxChars : Nat)
    (hS : ∀ c ∈ S, c ≤ 32) (hmax : 5 ≤ maxChars) :
    WordpieceTokenizer.tokenize S exampleVocab unkToken maxChars [104, 101, 108, 108, 111]
      = [[104, 101, 108, 108, 111]] := by
  have e2 := isStripChar_above hS
  have hseg : WordpieceTokenizer.segmentLoop exampleVocab [104, 101, 108, 108, 111] 5 0 []
      = some [[104, 101, 108, 108, 111]] := by decide
  have hm : ¬ maxChars < 5 := by omega
  simp [WordpieceTokenizer.tokenize, whitespaceTokenize, strip, e2, split, splitLoop,
    WordpieceTokenizer.tokenizeWord, hseg, hm]

theorem wordpiece_nil (S : WString) (V : Vocab) (unk : WString) (maxChars : Nat) :
    WordpieceTokenizer.tokenize S V unk maxChars [] = [] := by
  simp [WordpieceTokenizer.tokenize, whitespaceTokenize, strip]

end Tokenizer

namespace Tokenizer

/-! ## Where the stop test does bound the output -/

/-- With a size of at least 1 the vector of `tokenizeToIds(text, size)` has at
most `size` entries. -/
theorem tokenizeToIds_length_le (U : Utf8proc) (S : WString) (doLowerCase : Bool)
    (V : Vocab) (unk : WString) (maxChars : Nat) (text : List Nat) (size : Int)
    (hunk : MarkerSafe U S V unk) (hsize : 1 ≤ size) :
    ((FullTokenizer.tokenizeToIds U S doLowerCase V unk maxChars text size).out.length : Int)
      ≤ size := by
  obtain ⟨V2, _, h⟩ := tokenizeToIds_spec U S doLowerCase V unk maxChars text size hunk
  rw [h]
  simp only [List.length_take]
  generalize (unboundedIds U S doLowerCase V unk maxChars text).length = n
  unfold truncLen
  rw [if_pos (by omega)]
  omega

/-- With a start offset below the capacity the buffer-filling `tokenizeToIds`
writes at offsets from `start` up to, but not including, the capacity. -/
theorem tokenizeToIdsBuf_writes_in_bounds (U : Utf8proc) (S : WString) (doLowerCase : Bool)
    (V : Vocab) (unk : WString) (maxChars : Nat) (text : List Nat)
    (ids0 mask0 : Int → Int) (size start : Int)
    (hunk : MarkerSafe U S V unk) (hlt : start < size) :
    ∀ w ∈ (FullTokenizer.tokenizeToIdsBuf U S doLowerCase V unk maxChars text ids0 mask0
      size start).writes, start ≤ w ∧ w < size := by
  have hsim := bufOuter_sim S unk maxChars start ids0 mask0 size
    (BasicTokenizer.tokenize U S doLowerCase text) ⟨V, ids0, mask0, start, []⟩ ⟨V, [], 0⟩
    (sim_init V start ids0 mask0)
  obtain ⟨V2, _, hspec⟩ := tokenizeToIds_spec U S doLowerCase V unk maxChars text
    (size - start) hunk
  unfold FullTokenizer.tokenizeToIds at hspec
  rw [hspec] at hsim
  unfold FullTokenizer.tokenizeToIdsBuf
  generalize unboundedIds U S doLowerCase V unk maxChars text = ids at hsim ⊢
  generalize FullTokenizer.bufOuter S unk maxChars size
    (BasicTokenizer.tokenize U S doLowerCase text) ⟨V, ids0, mask0, start, []⟩ = R at hsim ⊢
  obtain ⟨_, _, _, s4, _, _⟩ := hsim
  simp only [List.length_take] at s4
  intro w hw
  rw [s4, List.mem_map] at hw
  obtain ⟨j, hj, rfl⟩ := hw
  rw [List.mem_range] at hj
  have : truncLen (size - start) 0 ids.length ≤ (size - start).toNat := by
    unfold truncLen
    rw [if_pos (by omega)]
    omega
  omega

end Tokenizer

namespace Tokenizer

/-! ## The examples of the specification: a two-word text -/

/-- Claim C1 (the code differs): with the vocabulary `[UNK]` 0, `hello` 1,
`world` 2, `##s` 3, the marker `[UNK]` and `doLowerCase = true`, on the text
`Hello worlds` the code does not produce `hello worlds` / `hello world ##s` /
`1 2 3`: `BasicTokenizer::tokenize` returns `hello` followed by an empty
token (`join` leaves out the last element), `FullTokenizer::tokenize` returns
`hello` alone and its ids are `1` alone. -/
theorem C1_hello_worlds_last_token_lost (U : Utf8proc) (S : WString) (maxChars : Nat)
    (hU : AsciiSound U) (h32 : 32 ∈ S) (hS : ∀ c ∈ S, c ≤ 32) (hmax : 6 ≤ maxChars) :
    BasicTokenizer.tokenize U S true
        [72, 101, 108, 108, 111, 32, 119, 111, 114, 108, 100, 115]
      = [[104, 101, 108, 108, 111], []] ∧
    FullTokenizer.tokenize U S true exampleVocab unkToken maxChars
        [72, 101, 108, 108, 111, 32, 119, 111, 114, 108, 100, 115]
      = [[104, 101, 108, 108, 111]] ∧
    (FullTokenizer.convertTokensToIds exampleVocab
        (FullTokenizer.tokenize U S true exampleVocab unkToken maxChars
          [72, 101, 108, 108, 111, 32, 119, 111, 114, 108, 100, 115])).1 = [1] := by
  have e1 := isStripChar_space h32
  have e2 := isStripChar_above hS
  have c1 := hU.category_ascii
  have c2 := hU.tolower_ascii
  have hb : BasicTokenizer.tokenize U S true
      [72, 101, 108, 108, 111, 32, 119, 111, 114, 108, 100, 115]
      = [[104, 101, 108, 108, 111], []] := by
    unfold BasicTokenizer.tokenize
    rw [convertToUnicode_ascii hU _ (by decide)]
    simp [BasicTokenizer.cleanText, BasicTokenizer.isControol, BasicTokenizer.isWhitespace, c1,
      asciiCategory, BasicTokenizer.tokenizeChineseChars, BasicTokenizer.isChineseChar,
      whitespaceTokenize, strip, e1, e2, split, splitLoop, BasicTokenizer.splitToken, tolower,
      c2, asciiLower]
    rw [runStripAccents_ascii hU _ (by decide), runStripAccents_ascii hU _ (by decide)]
    simp [BasicTokenizer.runSplitOnPunc, BasicTokenizer.runSplitOnPuncLoop,
      BasicTokenizer.isPunctuation, c1, asciiCategory, BasicTokenizer.appendToLast,
      BasicTokenizer.join, e1, e2, splitLoop]
  have hseg : WordpieceTokenizer.segmentLoop exampleVocab [104, 101, 108, 108, 111] 5 0 []
      = some [[104, 101, 108, 108, 111]] := by decide
  have hm : ¬ maxChars < 5 := by omega
  have hf : FullTokenizer.tokenize U S true exampleVocab unkToken maxChars
      [72, 101, 108, 108, 111, 32, 119, 111, 114, 108, 100, 115]
      = [[104, 101, 108, 108, 111]] := by
    unfold FullTokenizer.tokenize
    rw [hb]
    simp [WordpieceTokenizer.tokenize, whitespaceTokenize, strip, e2, split, splitLoop,
      WordpieceTokenizer.tokenizeWord, hseg, hm]
  refine ⟨hb, hf, ?_⟩
  rw [hf]
  decide

/-- Witness for C1: the ASCII-only library instance, the usual six delimiter
characters and a word limit of 200. -/
theorem C1_hello_worlds_last_token_lost_witness :
    AsciiSound asciiProc ∧ 32 ∈ asciiStripChar ∧ (∀ c ∈ asciiStripChar, c ≤ 32) ∧ 6 ≤ 200 ∧
    (BasicTokenizer.tokenize asciiProc asciiStripChar true
        [72, 101, 108, 108, 111, 32, 119, 111, 114, 108, 100, 115]
      = [[104, 101, 108, 108, 111], []] ∧
    FullTokenizer.tokenize asciiProc asciiStripChar true exampleVocab unkToken 200
        [72, 101, 108, 108, 111, 32, 119, 111, 114, 108, 100, 115]
      = [[104, 101, 108, 108, 111]] ∧
    (FullTokenizer.convertTokensToIds exampleVocab
        (FullTokenizer.tokenize asciiProc asciiStripChar true exampleVocab unkToken 200
          [72, 101, 108, 108, 111, 32, 119, 111, 114, 108, 100, 115])).1 = [1]) :=
  ⟨asciiProc_sound, by decide, by decide, by decide,
    C1_hello_worlds_last_token_lost asciiProc asciiStripChar 200 asciiProc_sound
      (by decide) (by decide) (by decide)⟩

/-! ## WordPiece segmentation of one word -/

/-- Claim C2: for every vocabulary and every non-empty token without
delimiter characters and of at most `maxInputCharsPerWord` codepoints, if
`WordpieceTokenizer::tokenize` does not return the unknown marker alone, its
output is the greedy longest-match segmentation: every piece is a key of the
vocabulary; the first piece followed by the later pieces without their
leading `##` is the token; and every piece is the key window at its start
position, no longer window from that position (with `##` in front when the
position is not 0) being a key. -/
theorem C2_output_is_greedy_longest_match (S : WString) (V : Vocab) (unk : WString)
    (maxChars : Nat) (token : WString)
    (hne : token ≠ []) (hd : ∀ c ∈ token, isStripChar S c = false)
    (hlen : token.length ≤ maxChars)
    (hout : WordpieceTokenizer.tokenize S V unk maxChars token ≠ [unk]) :
    (∀ p ∈ WordpieceTokenizer.tokenize S V unk maxChars token, V.contains p = true) ∧
    rejoin (WordpieceTokenizer.tokenize S V unk maxChars token) = token ∧
    ∀ i, i < (WordpieceTokenizer.tokenize S V unk maxChars token).length →
      startOf (WordpieceTokenizer.tokenize S V unk maxChars token) i <
        startOf (WordpieceTokenizer.tokenize S V unk maxChars token) (i + 1) ∧
      startOf (WordpieceTokenizer.tokenize S V unk maxChars token) (i + 1) ≤ token.length ∧
      (WordpieceTokenizer.tokenize S V unk maxChars token)[i]? =
        some (piece token (startOf (WordpieceTokenizer.tokenize S V unk maxChars token) i)
          (startOf (WordpieceTokenizer.tokenize S V unk maxChars token) (i + 1))) ∧
      ∀ e2, startOf (WordpieceTokenizer.tokenize S V unk maxChars token) (i + 1) < e2 →
        e2 ≤ token.length →
        V.contains
          (piece token (startOf (WordpieceTokenizer.tokenize S V unk maxChars token) i) e2)
          = false := by
  have hm : ¬ maxChars < token.length := by omega
  rw [tokenize_word S V unk maxChars token hne hd] at hout ⊢
  unfold WordpieceTokenizer.tokenizeWord at hout ⊢
  rw [if_neg hm] at hout ⊢
  cases hseg : WordpieceTokenizer.segmentLoop V token token.length 0 [] with
  | none => rw [hseg] at hout; simp at hout
  | some r =>
    simp only [List.nil_append]
    have hg : Greedy V token token.length r :=
      segmentLoop_greedy V token token.length 0 [] r Greedy.start (by omega) (by omega) hseg
    refine ⟨greedy_mem V token _ r hg, ?_, greedy_longest V token _ r hg⟩
    rw [(greedy_rejoin V token _ r hg).2, List.take_length]

/-- Witness for C2: the word `worlds` is cut into `world` and `##s`. -/
theorem C2_output_is_greedy_longest_match_witness :
    ([119, 111, 114, 108, 100, 115] : WString) ≠ [] ∧
    (∀ c ∈ ([119, 111, 114, 108, 100, 115] : WString), isStripChar asciiStripChar c = false) ∧
    ([119, 111, 114, 108, 100, 115] : WString).length ≤ 200 ∧
    WordpieceTokenizer.tokenize asciiStripChar exampleVocab unkToken 200
      [119, 111, 114, 108, 100, 115] ≠ [unkToken] ∧
    rejoin (WordpieceTokenizer.tokenize asciiStripChar exampleVocab unkToken 200
      [119, 111, 114, 108, 100, 115]) = [119, 111, 114, 108, 100, 115] :=
  ⟨by decide, by decide, by decide, by decide,
    (C2_output_is_greedy_longest_match asciiStripChar exampleVocab unkToken 200
      [119, 111, 114, 108, 100, 115] (by decide) (by decide) (by decide) (by decide)).2.1⟩

/-- Claim C3: for every vocabulary and every non-empty token without
delimiter characters and of at most `maxInputCharsPerWord` codepoints, if the
greedy segmentation reaches a start position inside the token at which no
window (down to length 1) is a key, then `WordpieceTokenizer::tokenize`
returns exactly the unknown marker, without the pieces matched before; in
particular it does so when no leading substring of the token is a key. -/
theorem C3_unsegmentable_token_is_unknown (S : WString) (V : Vocab) (unk : WString)
    (maxChars : Nat) (token : WString)
    (hne : token ≠ []) (hd : ∀ c ∈ token, isStripChar S c = false)
    (hlen : token.length ≤ maxChars) :
    (∀ s ps, Greedy V token s ps → s < token.length →
      (∀ e, s < e → e ≤ token.length → V.contains (piece token s e) = false) →
      WordpieceTokenizer.tokenize S V unk maxChars token = [unk]) ∧
    ((∀ e, 0 < e → e ≤ token.length → V.contains (token.take e) = false) →
      WordpieceTokenizer.tokenize S V unk maxChars token = [unk]) := by
  have hm : ¬ maxChars < token.length := by omega
  have key : ∀ s ps, Greedy V token s ps → s < token.length →
      (∀ e, s < e → e ≤ token.length → V.contains (piece token s e) = false) →
      WordpieceTokenizer.tokenize S V unk maxChars token = [unk] := by
    intro s ps hg hs hb
    rw [tokenize_word S V unk maxChars token hne hd]
    unfold WordpieceTokenizer.tokenizeWord
    rw [if_neg hm, segmentLoop_blocked V token s ps hg hs hb]
    rfl
  refine ⟨key, ?_⟩
  intro h
  have hpos : 0 < token.length := List.length_pos.mpr hne
  refine key 0 [] Greedy.start hpos ?_
  intro e h1 h2
  have : piece token 0 e = token.take e := by simp [piece]
  rw [this]
  exact h e h1 h2

/-- Witness for C3: in `worldx` the piece `world` is matched, then nothing
matches at position 5, and the result is the marker alone. -/
theorem C3_unsegmentable_token_is_unknown_witness :
    ([119, 111, 114, 108, 100, 120] : WString) ≠ [] ∧
    (∀ c ∈ ([119, 111, 114, 108, 100, 120] : WString), isStripChar asciiStripChar c = false) ∧
    ([119, 111, 114, 108, 100, 120] : WString).length ≤ 200 ∧
    Greedy exampleVocab [119, 111, 114, 108, 100, 120] 5 [[119, 111, 114, 108, 100]] ∧
    WordpieceTokenizer.tokenize asciiStripChar exampleVocab unkToken 200
      [119, 111, 114, 108, 100, 120] = [unkToken] := by
  have hg : Greedy exampleVocab [119, 111, 114, 108, 100, 120] 5 [[119, 111, 114, 108, 100]] :=
    Greedy.step 0 5 [] Greedy.start (by decide) (by decide) (by decide)
      (fun e2 h1 h2 => by
        have h3 : e2 ≤ 6 := h2
        interval_cases e2
        decide)
  exact ⟨by decide, by decide, by decide, hg,
    (C3_unsegmentable_token_is_unknown asciiStripChar exampleVocab unkToken 200
      [119, 111, 114, 108, 100, 120] (by decide) (by decide) (by decide)).1 5 _ hg (by decide)
      (fun e h1 h2 => by
        have h3 : e ≤ 6 := h2
        interval_cases e
        decide)⟩

/-- Claim C4 (the code differs): for a token without delimiter characters
that is longer than `maxInputCharsPerWord`, `WordpieceTokenizer::tokenize`
never returns the unknown marker alone. After pushing the marker the loop
body goes on to segment the token, so the result is the marker followed by
at least one more token: the pieces of the token, or a second marker. -/
theorem C4_overlong_token_marker_is_not_alone (S : WString) (V : Vocab) (unk : WString)
    (maxChars : Nat) (token : WString)
    (hd : ∀ c ∈ token, isStripChar S c = false) (hlen : maxChars < token.length) :
    WordpieceTokenizer.tokenize S V unk maxChars token ≠ [unk] ∧
    ∃ more, more ≠ [] ∧ WordpieceTokenizer.tokenize S V unk maxChars token = unk :: more ∧
      (more = [unk] ∨ Greedy V token token.length more) := by
  have hne : token ≠ [] := by
    intro h
    rw [h] at hlen
    simp at hlen
  have hpos : 0 < token.length := List.length_pos.mpr hne
  have hex : ∃ more, more ≠ [] ∧
      WordpieceTokenizer.tokenize S V unk maxChars token = unk :: more ∧
      (more = [unk] ∨ Greedy V token token.length more) := by
    rw [tokenize_word S V unk maxChars token hne hd]
    unfold WordpieceTokenizer.tokenizeWord
    rw [if_pos hlen]
    cases hseg : WordpieceTokenizer.segmentLoop V token token.length 0 [] with
    | none => exact ⟨[unk], by simp, rfl, Or.inl rfl⟩
    | some r =>
      have hg : Greedy V token token.length r :=
        segmentLoop_greedy V token token.length 0 [] r Greedy.start (by omega) (by omega) hseg
      refine ⟨r, ?_, rfl, Or.inr hg⟩
      intro hr
      have := (greedy_pos V token _ r hg).mp hr
      omega
  refine ⟨?_, hex⟩
  obtain ⟨more, h1, h2, _⟩ := hex
  rw [h2]
  intro h
  simp only [List.cons.injEq, true_and] at h
  exact h1 h

/-- Witness for C4: with a limit of 2 codepoints the token `foo` gives the
marker twice, and the token `worlds` gives the marker followed by its
pieces. -/
theorem C4_overlong_token_marker_is_not_alone_witness :
    (∀ c ∈ ([102, 111, 111] : WString), isStripChar asciiStripChar c = false) ∧
    2 < ([102, 111, 111] : WString).length ∧
    WordpieceTokenizer.tokenize asciiStripChar exampleVocab unkToken 2 [102, 111, 111]
      = [unkToken, unkToken] ∧
    WordpieceTokenizer.tokenize asciiStripChar exampleVocab unkToken 2
      [119, 111, 114, 108, 100, 115]
      = [unkToken, [119, 111, 114, 108, 100], [35, 35, 115]] ∧
    WordpieceTokenizer.tokenize asciiStripChar exampleVocab unkToken 2 [102, 111, 111]
      ≠ [unkToken] :=
  ⟨by decide, by decide, by decide, by decide,
    (C4_overlong_token_marker_is_not_alone asciiStripChar exampleVocab unkToken 2
      [102, 111, 111] (by decide) (by decide)).1⟩

/-! ## The examples of the specification: a one-word text and punctuation -/

/-- Claim C5 (the code differs): on the one-word text `foo` the code does not
return `[UNK]` and the id `0`. `BasicTokenizer::tokenize` already returns no
token at all (`join` leaves out the last, here the only, element), so
`FullTokenizer::tokenize` returns the empty sequence and `tokenizeToIds`
returns no id, for every size and either case setting. -/
theorem C5_single_word_yields_nothing (U : Utf8proc) (S : WString) (maxChars : Nat)
    (doLowerCase : Bool) (size : Int)
    (hU : AsciiSound U) (hS : ∀ c ∈ S, c ≤ 32) :
    BasicTokenizer.tokenize U S doLowerCase [102, 111, 111] = [] ∧
    FullTokenizer.tokenize U S doLowerCase exampleVocab unkToken maxChars [102, 111, 111] = [] ∧
    (FullTokenizer.tokenizeToIds U S doLowerCase exampleVocab unkToken maxChars
      [102, 111, 111] size).out = [] := by
  have e2 := isStripChar_above hS
  have c1 := hU.category_ascii
  have c2 := hU.tolower_ascii
  have hb : BasicTokenizer.tokenize U S doLowerCase [102, 111, 111] = [] := by
    unfold BasicTokenizer.tokenize
    rw [convertToUnicode_ascii hU _ (by decide)]
    cases doLowerCase
    · simp [BasicTokenizer.cleanText, BasicTokenizer.isControol, BasicTokenizer.isWhitespace, c1,
        asciiCategory, BasicTokenizer.tokenizeChineseChars, BasicTokenizer.isChineseChar,
        whitespaceTokenize, strip, e2, split, splitLoop, BasicTokenizer.splitToken,
        BasicTokenizer.runSplitOnPunc, BasicTokenizer.runSplitOnPuncLoop,
        BasicTokenizer.isPunctuation, BasicTokenizer.appendToLast, BasicTokenizer.join]
    · simp [BasicTokenizer.cleanText, BasicTokenizer.isControol, BasicTokenizer.isWhitespace, c1,
        asciiCategory, BasicTokenizer.tokenizeChineseChars, BasicTokenizer.isChineseChar,
        whitespaceTokenize, strip, e2, split, splitLoop, BasicTokenizer.splitToken, tolower,
        c2, asciiLower]
      rw [runStripAccents_ascii hU _ (by decide)]
      simp [BasicTokenizer.runSplitOnPunc, BasicTokenizer.runSplitOnPuncLoop,
        BasicTokenizer.isPunctuation, c1, asciiCategory, BasicTokenizer.appendToLast,
        BasicTokenizer.join, strip]
  refine ⟨hb, ?_, ?_⟩
  · rw [FullTokenizer.tokenize, hb]
    rfl
  · rw [FullTokenizer.tokenizeToIds, hb]
    rfl

/-- Witness for C5: the ASCII-only library instance and the usual six
delimiter characters, with lowercasing, a word limit of 200 and size 1. -/
theorem C5_single_word_yields_nothing_witness :
    AsciiSound asciiProc ∧ (∀ c ∈ asciiStripChar, c ≤ 32) ∧
    (BasicTokenizer.tokenize asciiProc asciiStripChar true [102, 111, 111] = [] ∧
    FullTokenizer.tokenize asciiProc asciiStripChar true exampleVocab unkToken 200
      [102, 111, 111] = [] ∧
    (FullTokenizer.tokenizeToIds asciiProc asciiStripChar true exampleVocab unkToken 200
      [102, 111, 111] 1).out = []) :=
  ⟨asciiProc_sound, by decide,
    C5_single_word_yields_nothing asciiProc asciiStripChar 200 true 1 asciiProc_sound
      (by decide)⟩

/-- Claim C6 (the code differs): on `don't` the code does not return the
three tokens `don`, the apostrophe and `t`. Punctuation splitting produces
them, but `join` leaves out the last one and ends with a delimiter, so
`BasicTokenizer::tokenize` returns `don`, the apostrophe and an empty token,
for either case setting. -/
theorem C6_dont_loses_final_token (U : Utf8proc) (S : WString) (doLowerCase : Bool)
    (hU : AsciiSound U) (h32 : 32 ∈ S) (hS : ∀ c ∈ S, c ≤ 32) :
    BasicTokenizer.runSplitOnPunc U [100, 111, 110, 39, 116] = [[100, 111, 110], [39], [116]] ∧
    BasicTokenizer.tokenize U S doLowerCase [100, 111, 110, 39, 116]
      = [[100, 111, 110], [39], []] := by
  have e1 := isStripChar_space h32
  have e2 := isStripChar_above hS
  have c1 := hU.category_ascii
  have c2 := hU.tolower_ascii
  have hp : BasicTokenizer.runSplitOnPunc U [100, 111, 110, 39, 116]
      = [[100, 111, 110], [39], [116]] := by
    simp [BasicTokenizer.runSplitOnPunc, BasicTokenizer.runSplitOnPuncLoop,
      BasicTokenizer.isPunctuation, c1, asciiCategory, BasicTokenizer.appendToLast]
  refine ⟨hp, ?_⟩
  unfold BasicTokenizer.tokenize
  rw [convertToUnicode_ascii hU _ (by decide)]
  cases doLowerCase
  · simp [BasicTokenizer.cleanText, BasicTokenizer.isControol, BasicTokenizer.isWhitespace, c1,
      asciiCategory, BasicTokenizer.tokenizeChineseChars, BasicTokenizer.isChineseChar,
      whitespaceTokenize, strip, e2, split, splitLoop, BasicTokenizer.splitToken]
    simp [hp, BasicTokenizer.join, e1, e2, splitLoop, strip]
  · simp [BasicTokenizer.cleanText, BasicTokenizer.isControol, BasicTokenizer.isWhitespace, c1,
      asciiCategory, BasicTokenizer.tokenizeChineseChars, BasicTokenizer.isChineseChar,
      whitespaceTokenize, strip, e2, split, splitLoop, BasicTokenizer.splitToken, tolower,
      c2, asciiLower]
    rw [runStripAccents_ascii hU _ (by decide)]
    simp [hp, BasicTokenizer.join, e1, e2, splitLoop, strip]

/-- Witness for C6: the ASCII-only library instance and the usual six
delimiter characters, with lowercasing. -/
theorem C6_dont_loses_final_token_witness :
    AsciiSound asciiProc ∧ 32 ∈ asciiStripChar ∧ (∀ c ∈ asciiStripChar, c ≤ 32) ∧
    (BasicTokenizer.runSplitOnPunc asciiProc [100, 111, 110, 39, 116]
      = [[100, 111, 110], [39], [116]] ∧
    BasicTokenizer.tokenize asciiProc asciiStripChar true [100, 111, 110, 39, 116]
      = [[100, 111, 110], [39], []]) :=
  ⟨asciiProc_sound, by decide, by decide,
    C6_dont_loses_final_token asciiProc asciiStripChar true asciiProc_sound
      (by decide) (by decide)⟩

/-! ## Truncation and buffer filling -/

/-- Claim C7 (the code differs): `tokenizeToIds(text, size)` does not keep to
`size` entries when `size` is 0. The stop test `i == size` comes after the
push and the increment, so with `size = 0` it never holds: on the text
`hello hello` the call returns the one id of the text, one entry more than
the size allows. -/
theorem C7_size_zero_is_not_a_bound (U : Utf8proc) (S : WString) (maxChars : Nat)
    (hU : AsciiSound U) (h32 : 32 ∈ S) (hS : ∀ c ∈ S, c ≤ 32) (hmax : 5 ≤ maxChars) :
    (FullTokenizer.tokenizeToIds U S true exampleVocab unkToken maxChars
      [104, 101, 108, 108, 111, 32, 104, 101, 108, 108, 111] 0).out = [1] := by
  unfold FullTokenizer.tokenizeToIds
  rw [basic_hello_hello U S hU h32 hS]
  simp only [FullTokenizer.idsOuter]
  rw [wordpiece_hello S maxChars hS hmax]
  have h1 : FullTokenizer.idsInner 0 [[104, 101, 108, 108, 111]] ⟨exampleVocab, [], 0⟩
      = FullTokenizer.Flow.next ⟨exampleVocab, [1], 1⟩ := by
    simp [FullTokenizer.idsInner, Vocab.index, exampleVocab, List.lookup]
  rw [h1]
  simp only
  rw [wordpiece_nil]
  rfl

/-- Witness for C7: the ASCII-only library instance, the usual six delimiter
characters and a word limit of 200. -/
theorem C7_size_zero_is_not_a_bound_witness :
    AsciiSound asciiProc ∧ 32 ∈ asciiStripChar ∧ (∀ c ∈ asciiStripChar, c ≤ 32) ∧ 5 ≤ 200 ∧
    (FullTokenizer.tokenizeToIds asciiProc asciiStripChar true exampleVocab unkToken 200
      [104, 101, 108, 108, 111, 32, 104, 101, 108, 108, 111] 0).out = [1] :=
  ⟨asciiProc_sound, by decide, by decide, by decide,
    C7_size_zero_is_not_a_bound asciiProc asciiStripChar 200 asciiProc_sound
      (by decide) (by decide) (by decide)⟩

/-- Claim C8: for every text, vocabulary, size and `k <= size`, the first `k`
entries of `tokenizeToIds(text, size)` are the first `k` entries of the
unbounded sequence `convertTokensToIds(tokenize(text))`, and the returned
vector is an initial segment of that sequence: truncation cuts the tail only.
The unknown marker is a key of the vocabulary, or it has the shape of `[UNK]`
and the space is a delimiter. -/
theorem C8_truncation_keeps_leading_ids (U : Utf8proc) (S : WString) (doLowerCase : Bool)
    (V : Vocab) (unk : WString) (maxChars : Nat) (text : List Nat) (size : Int) (k : Nat)
    (hunk : MarkerSafe U S V unk) (hk : (k : Int) ≤ size) :
    (FullTokenizer.tokenizeToIds U S doLowerCase V unk maxChars text size).out.take k =
      (unboundedIds U S doLowerCase V unk maxChars text).take k ∧
    (FullTokenizer.tokenizeToIds U S doLowerCase V unk maxChars text size).out <+:
      unboundedIds U S doLowerCase V unk maxChars text := by
  obtain ⟨V2, _, h⟩ := tokenizeToIds_spec U S doLowerCase V unk maxChars text size hunk
  rw [h]
  simp only
  refine ⟨?_, List.take_prefix _ _⟩
  rw [List.take_take]
  by_cases hkn : k ≤ (unboundedIds U S doLowerCase V unk maxChars text).length
  · have : min k (truncLen size 0 (unboundedIds U S doLowerCase V unk maxChars text).length)
        = k := by
      unfold truncLen
      split <;> omega
    rw [this]
  · have h1 : min k (truncLen size 0 (unboundedIds U S doLowerCase V unk maxChars text).length)
        = (unboundedIds U S doLowerCase V unk maxChars text).length := by
      unfold truncLen
      split <;> omega
    rw [h1, List.take_length, List.take_of_length_le (by omega)]

/-- Witness for C8: the text `hello worlds x` with size 2 and `k = 2`. -/
theorem C8_truncation_keeps_leading_ids_witness :
    MarkerSafe asciiProc asciiStripChar exampleVocab unkToken ∧ ((2 : Nat) : Int) ≤ 2 ∧
    ((FullTokenizer.tokenizeToIds asciiProc asciiStripChar true exampleVocab unkToken 200
        [104, 101, 108, 108, 111, 32, 119, 111, 114, 108, 100, 115, 32, 120] 2).out.take 2 =
      (unboundedIds asciiProc asciiStripChar true exampleVocab unkToken 200
        [104, 101, 108, 108, 111, 32, 119, 111, 114, 108, 100, 115, 32, 120]).take 2 ∧
    (FullTokenizer.tokenizeToIds asciiProc asciiStripChar true exampleVocab unkToken 200
        [104, 101, 108, 108, 111, 32, 119, 111, 114, 108, 100, 115, 32, 120] 2).out <+:
      unboundedIds asciiProc asciiStripChar true exampleVocab unkToken 200
        [104, 101, 108, 108, 111, 32, 119, 111, 114, 108, 100, 115, 32, 120]) :=
  ⟨Or.inl (by decide), by decide,
    C8_truncation_keeps_leading_ids asciiProc asciiStripChar true exampleVocab unkToken 200
      [104, 101, 108, 108, 111, 32, 119, 111, 114, 108, 100, 115, 32, 120] 2 2
      (Or.inl (by decide)) (by decide)⟩

/-- Claim C9 (the code differs): the buffer-filling `tokenizeToIds` does
write at or past the capacity when the start offset is not below it. The
stop test `i == size` comes after the write and the increment: on the text
`hello hello` with capacity 2 and start offset 2 the call writes the id 1 and
the mask 1 at offset 2 and returns 3. -/
theorem C9_write_at_capacity (U : Utf8proc) (S : WString) (maxChars : Nat)
    (ids0 mask0 : Int → Int)
    (hU : AsciiSound U) (h32 : 32 ∈ S) (hS : ∀ c ∈ S, c ≤ 32) (hmax : 5 ≤ maxChars) :
    (FullTokenizer.tokenizeToIdsBuf U S true exampleVocab unkToken maxChars
      [104, 101, 108, 108, 111, 32, 104, 101, 108, 108, 111] ids0 mask0 2 2).writes = [2] ∧
    (FullTokenizer.tokenizeToIdsBuf U S true exampleVocab unkToken maxChars
      [104, 101, 108, 108, 111, 32, 104, 101, 108, 108, 111] ids0 mask0 2 2).input_ids 2 = 1 ∧
    (FullTokenizer.tokenizeToIdsBuf U S true exampleVocab unkToken maxChars
      [104, 101, 108, 108, 111, 32, 104, 101, 108, 108, 111] ids0 mask0 2 2).mask 2 = 1 ∧
    (FullTokenizer.tokenizeToIdsBuf U S true exampleVocab unkToken maxChars
      [104, 101, 108, 108, 111, 32, 104, 101, 108, 108, 111] ids0 mask0 2 2).i = 3 := by
  unfold FullTokenizer.tokenizeToIdsBuf
  rw [basic_hello_hello U S hU h32 hS]
  simp only [FullTokenizer.bufOuter]
  rw [wordpiece_hello S maxChars hS hmax]
  have h1 : FullTokenizer.bufInner 2 [[104, 101, 108, 108, 111]]
      ⟨exampleVocab, ids0, mask0, 2, []⟩
      = FullTokenizer.Flow.next
        ⟨exampleVocab, Function.update ids0 2 1, Function.update mask0 2 1, 3, [2]⟩ := by
    simp [FullTokenizer.bufInner, Vocab.index, exampleVocab, List.lookup]
  rw [h1]
  simp only
  rw [wordpiece_nil]
  simp [FullTokenizer.bufInner]

/-- Witness for C9: the ASCII-only library instance, the usual six delimiter
characters, a word limit of 200 and buffers filled with zeros. -/
theorem C9_write_at_capacity_witness :
    AsciiSound asciiProc ∧ 32 ∈ asciiStripChar ∧ (∀ c ∈ asciiStripChar, c ≤ 32) ∧ 5 ≤ 200 ∧
    (FullTokenizer.tokenizeToIdsBuf asciiProc asciiStripChar true exampleVocab unkToken 200
      [104, 101, 108, 108, 111, 32, 104, 101, 108, 108, 111]
      (fun _ => 0) (fun _ => 0) 2 2).writes = [2] :=
  ⟨asciiProc_sound, by decide, by decide, by decide,
    (C9_write_at_capacity asciiProc asciiStripChar 200 (fun _ => 0) (fun _ => 0)
      asciiProc_sound (by decide) (by decide) (by decide)).1⟩

/-- Claim C10: for every text and every `0 <= start < size`, with `n` the
length of the unbounded id sequence and `m = min(n, size - start)`, the
buffer-filling `tokenizeToIds` returns `start + m`; afterwards
`input_ids[start + j]` is the `j`-th id of the unbounded sequence and
`mask[start + j]` is 1 for every `j < m`; every other position of both
buffers is as before. The unknown marker is a key of the vocabulary, or it
has the shape of `[UNK]` and the space is a delimiter. -/
theorem C10_buffer_fill_frame (U : Utf8proc) (S : WString) (doLowerCase : Bool)
    (V : Vocab) (unk : WString) (maxChars : Nat) (text : List Nat)
    (ids0 mask0 : Int → Int) (size start : Int)
    (hunk : MarkerSafe U S V unk) (_h0 : 0 ≤ start) (hlt : start < size) :
    (FullTokenizer.tokenizeToIdsBuf U S doLowerCase V unk maxChars text ids0 mask0 size start).i
      = start + (min (unboundedIds U S doLowerCase V unk maxChars text).length
          (size - start).toNat : Nat) ∧
    (∀ j : Nat, j < min (unboundedIds U S doLowerCase V unk maxChars text).length
          (size - start).toNat →
      some ((FullTokenizer.tokenizeToIdsBuf U S doLowerCase V unk maxChars text ids0 mask0
          size start).input_ids (start + j)) =
        ((unboundedIds U S doLowerCase V unk maxChars text)[j]?).map (fun (v : Nat) => (v : Int)) ∧
      (FullTokenizer.tokenizeToIdsBuf U S doLowerCase V unk maxChars text ids0 mask0
          size start).mask (start + j) = 1) ∧
    (∀ p : Int, (p < start ∨
        start + (min (unboundedIds U S doLowerCase V unk maxChars text).length
          (size - start).toNat : Nat) ≤ p) →
      (FullTokenizer.tokenizeToIdsBuf U S doLowerCase V unk maxChars text ids0 mask0
          size start).input_ids p = ids0 p ∧
      (FullTokenizer.tokenizeToIdsBuf U S doLowerCase V unk maxChars text ids0 mask0
          size start).mask p = mask0 p) := by
  have hsim := bufOuter_sim S unk maxChars start ids0 mask0 size
    (BasicTokenizer.tokenize U S doLowerCase text) ⟨V, ids0, mask0, start, []⟩ ⟨V, [], 0⟩
    (sim_init V start ids0 mask0)
  obtain ⟨V2, _, hspec⟩ := tokenizeToIds_spec U S doLowerCase V unk maxChars text
    (size - start) hunk
  unfold FullTokenizer.tokenizeToIds at hspec
  rw [hspec] at hsim
  unfold FullTokenizer.tokenizeToIdsBuf
  generalize unboundedIds U S doLowerCase V unk maxChars text = ids at hsim ⊢
  generalize FullTokenizer.bufOuter S unk maxChars size
    (BasicTokenizer.tokenize U S doLowerCase text) ⟨V, ids0, mask0, start, []⟩ = R at hsim ⊢
  have htl : truncLen (size - start) 0 ids.length = min ids.length (size - start).toNat := by
    unfold truncLen
    rw [if_pos (by omega)]
    simp
  rw [htl] at hsim
  obtain ⟨_, s2, _, _, s5, s6⟩ := hsim
  simp only [List.length_take] at s5 s6
  have hmm : min (min ids.length (size - start).toNat) ids.length
      = min ids.length (size - start).toNat := by
    omega
  rw [hmm] at s5 s6
  refine ⟨s2, ?_, ?_⟩
  · intro j hj
    have hc : start ≤ start + (j : Int) ∧ start + (j : Int) < start +
        ((min ids.length (size - start).toNat : Nat) : Int) := by
      constructor <;> omega
    have hidx : (start + (j : Int) - start).toNat = j := by omega
    rw [s5, s6, if_pos hc, if_pos hc, hidx]
    refine ⟨?_, rfl⟩
    have hjn : j < ids.length := by omega
    rw [List.getD_eq_getElem?_getD, List.getElem?_take_of_lt hj, List.getElem?_eq_getElem hjn]
    simp
  · intro p hp
    have hc : ¬ (start ≤ p ∧ p < start +
        ((min ids.length (size - start).toNat : Nat) : Int)) := by
      omega
    rw [s5, s6, if_neg hc, if_neg hc]
    exact ⟨rfl, rfl⟩

/-- Witness for C10: the text `hello worlds x` written at offset 1 into
buffers of capacity 2, with a vocabulary that lacks the marker. -/
theorem C10_buffer_fill_frame_witness :
    MarkerSafe asciiProc asciiStripChar [([104, 101, 108, 108, 111], 1)] unkToken ∧
    (0 : Int) ≤ 1 ∧ (1 : Int) < 2 ∧
    (FullTokenizer.tokenizeToIdsBuf asciiProc asciiStripChar true
        [([104, 101, 108, 108, 111], 1)] unkToken 200
        [104, 101, 108, 108, 111, 32, 119, 111, 114, 108, 100, 115, 32, 120]
        (fun _ => 7) (fun _ => 0) 2 1).i
      = 1 + (min (unboundedIds asciiProc asciiStripChar true
          [([104, 101, 108, 108, 111], 1)] unkToken 200
          [104, 101, 108, 108, 111, 32, 119, 111, 114, 108, 100, 115, 32, 120]).length
          ((2 : Int) - 1).toNat : Nat) :=
  ⟨Or.inr ⟨by decide, by decide, ⟨91, by decide, by decide⟩, by decide⟩, by decide, by decide,
    (C10_buffer_fill_frame asciiProc asciiStripChar true [([104, 101, 108, 108, 111], 1)]
      unkToken 200
      [104, 101, 108, 108, 111, 32, 119, 111, 114, 108, 100, 115, 32, 120]
      (fun _ => 7) (fun _ => 0) 2 1
      (Or.inr ⟨by decide, by decide, ⟨91, by decide, by decide⟩, by decide⟩) (by decide)
      (by decide)).1⟩

end Tokenizer

namespace Tokenizer

/-! ## Ids of arbitrary tokens -/

theorem index_fst (V : Vocab) (t : WString) : (V.index t).1 = (V.lookup t).getD 0 := by
  unfold Vocab.index
  cases List.lookup t V <;> rfl

theorem index_lookup (V : Vocab) (t k : WString) :
    (List.lookup k (V.index t).2).getD 0 = (List.lookup k V).getD 0 := by
  unfold Vocab.index
  cases ht : List.lookup t V with
  | some v => rfl
  | none =>
    simp only
    rw [List.lookup_append]
    cases hk : List.lookup k V with
    | some w => rfl
    | none =>
      by_cases hkt : (k == t) = true
      · simp [List.lookup, hkt]
      · have : (k == t) = false := by simpa using hkt
        simp [List.lookup, this]

theorem convertTokensToIdsLoop_getD (V : Vocab) :
    ∀ (tokens : List WString) (V2 : Vocab) (ret : List Nat),
      (∀ k, (List.lookup k V2).getD 0 = (List.lookup k V).getD 0) →
      (FullTokenizer.convertTokensToIdsLoop tokens V2 ret).1 =
        ret ++ tokens.map (fun t => (List.lookup t V).getD 0) := by
  intro tokens
  induction tokens with
  | nil => intro V2 ret _; simp [FullTokenizer.convertTokensToIdsLoop]
  | cons t ts ih =>
    intro V2 ret h
    unfold FullTokenizer.convertTokensToIdsLoop
    rw [ih (V2.index t).2 _ (fun k => by rw [index_lookup, h k]), index_fst, h t]
    simp

end Tokenizer

namespace Tokenizer

/-! ## Vocabulary loading -/

theorem contains_eq_false_iff (V : Vocab) (k : WString) :
    V.contains k = false ↔ k ∉ V.map Prod.fst := by
  unfold Vocab.contains
  rw [← Bool.not_eq_true, List.lookup_isSome_iff]
  simp only [beq_iff_eq, List.mem_map, not_exists, not_and]
  constructor
  · intro h p hp hpk
    exact h p hp hpk.symm
  · intro h p hp hpk
    exact h p hp hpk.symm

theorem assign_absent (V : Vocab) (k : WString) (v : Nat) (h : V.contains k = false) :
    V.assign k v = V ++ [(k, v)] := by
  unfold Vocab.assign
  rw [h]
  simp

theorem assign_keys (V : Vocab) (k : WString) (v : Nat) :
    ∀ x ∈ (V.assign k v).map Prod.fst, x ∈ V.map Prod.fst ∨ x = k := by
  intro x hx
  unfold Vocab.assign at hx
  by_cases hc : V.contains k = true
  · rw [if_pos hc] at hx
    left
    rw [List.mem_map] at hx ⊢
    obtain ⟨p, hp, rfl⟩ := hx
    rw [List.mem_map] at hp
    obtain ⟨q, hq, rfl⟩ := hp
    refine ⟨q, hq, ?_⟩
    by_cases hqk : (q.1 == k) = true
    · rw [if_pos hqk]
    · rw [if_neg hqk]
  · rw [if_neg hc] at hx
    simp only [List.map_append, List.map_cons, List.map_nil, List.mem_append,
      List.mem_singleton] at hx
    exact hx

/-- With decodable non-empty lines and distinct stripped tokens the loop
appends one entry per line, numbered from `index` on. -/
theorem loadVocabLoop_distinct (U : Utf8proc) (S : WString) :
    ∀ (lines : List (List Nat)) (index : Nat) (vocab : Vocab),
      (∀ l ∈ lines, convertToUnicode U l ≠ []) →
      (vocab.map Prod.fst ++ lines.map (fun l => strip S (convertToUnicode U l))).Nodup →
      loadVocabLoop U S lines index vocab =
        vocab ++ List.zip (lines.map (fun l => strip S (convertToUnicode U l)))
          (List.range' index lines.length) := by
  intro lines
  induction lines with
  | nil => intro index vocab _ _; simp [loadVocabLoop]
  | cons l rest ih =>
    intro index vocab hdec hnd
    have hl : ¬ (convertToUnicode U l).isEmpty = true := by
      have := hdec l (List.mem_cons_self _ _)
      simpa using this
    have habs : vocab.contains (strip S (convertToUnicode U l)) = false := by
      rw [contains_eq_false_iff]
      intro hmem
      rw [List.nodup_append] at hnd
      exact hnd.2.2 hmem (by simp)
    unfold loadVocabLoop
    rw [if_neg hl, assign_absent _ _ _ habs,
      ih (index + 1) _ (fun x hx => hdec x (List.mem_cons_of_mem _ hx))]
    · simp [List.range'_succ]
    · simpa [List.append_assoc] using hnd

theorem lookup_zip_range (tokens : List WString) :
    ∀ (k i : Nat) (t : WString), tokens.Nodup → tokens[i]? = some t →
      List.lookup t (List.zip tokens (List.range' k tokens.length)) = some (k + i) := by
  induction tokens with
  | nil => intro k i t _ h; simp at h
  | cons a rest ih =>
    intro k i t hnd h
    rw [List.nodup_cons] at hnd
    simp only [List.length_cons, List.range'_succ, List.zip_cons_cons]
    cases i with
    | zero =>
      simp only [List.getElem?_cons_zero, Option.some.injEq] at h
      subst h
      simp
    | succ j =>
      simp only [List.getElem?_cons_succ] at h
      have hmem : t ∈ rest := List.getElem?_mem h
      have hne : (t == a) = false := by
        have : t ≠ a := fun e => hnd.1 (e ▸ hmem)
        simpa using this
      rw [List.lookup_cons, hne]
      simp only
      rw [ih (k + 1) j t hnd.2 h]
      congr 1
      omega

theorem loadVocabLoop_stop (U : Utf8proc) (S : WString) (line : List Nat)
    (post : List (List Nat)) (h : convertToUnicode U line = []) :
    ∀ (pre : List (List Nat)) (index : Nat) (vocab : Vocab),
      loadVocabLoop U S (pre ++ line :: post) index vocab =
        loadVocabLoop U S pre index vocab := by
  intro pre
  induction pre with
  | nil =>
    intro index vocab
    simp [loadVocabLoop, h]
  | cons l rest ih =>
    intro index vocab
    rw [List.cons_append]
    unfold loadVocabLoop
    by_cases hl : (convertToUnicode U l).isEmpty = true
    · rw [if_pos hl, if_pos hl]
    · rw [if_neg hl, if_neg hl]
      exact ih _ _

theorem loadVocabLoop_keys (U : Utf8proc) (S : WString) :
    ∀ (lines : List (List Nat)) (index : Nat) (vocab : Vocab),
      ∀ x ∈ (loadVocabLoop U S lines index vocab).map Prod.fst,
        x ∈ vocab.map Prod.fst ∨ ∃ l ∈ lines, x = strip S (convertToUnicode U l) := by
  intro lines
  induction lines with
  | nil => intro index vocab x hx; exact Or.inl (by simpa [loadVocabLoop] using hx)
  | cons l rest ih =>
    intro index vocab x hx
    unfold loadVocabLoop at hx
    by_cases hl : (convertToUnicode U l).isEmpty = true
    · rw [if_pos hl] at hx
      exact Or.inl hx
    · rw [if_neg hl] at hx
      rcases ih _ _ x hx with h | ⟨l2, h2, h3⟩
      · rcases assign_keys _ _ _ x h with h4 | h4
        · exact Or.inl h4
        · exact Or.inr ⟨l, List.mem_cons_self _ _, h4⟩
      · exact Or.inr ⟨l2, List.mem_cons_of_mem _ h2, h3⟩

end Tokenizer

namespace Tokenizer

/-! ## Texts that do not decode, and the example with a CJK character -/

theorem convertToUnicodeLoop_fails (U : Utf8proc) (rest : List Nat)
    (h : DecodeFails U rest) :
    ∀ (fuel : Nat) (ret : WString), rest.length ≤ fuel →
      convertToUnicodeLoop U fuel rest ret = [] := by
  induction h with
  | here rest hne hneg =>
    intro fuel ret hlen
    have hpos : 0 < rest.length := List.length_pos.mpr hne
    obtain ⟨f, rfl⟩ : ∃ f, fuel = f + 1 := ⟨fuel - 1, by omega⟩
    have he : ¬ rest.isEmpty = true := by simpa using hne
    unfold convertToUnicodeLoop
    rw [if_neg he]
    simp only
    rw [if_pos hneg]
  | later rest hne hpos _ ih =>
    intro fuel ret hlen
    have hl : 0 < rest.length := List.length_pos.mpr hne
    obtain ⟨f, rfl⟩ : ∃ f, fuel = f + 1 := ⟨fuel - 1, by omega⟩
    have he : ¬ rest.isEmpty = true := by simpa using hne
    have hn : ¬ (U.iterate rest).1 < 0 := by omega
    unfold convertToUnicodeLoop
    rw [if_neg he]
    simp only
    rw [if_neg hn]
    apply ih
    rw [List.length_drop]
    omega

theorem basic_of_decode_nil (U : Utf8proc) (S : WString) (doLowerCase : Bool)
    (text : List Nat) (h : convertToUnicode U text = []) :
    BasicTokenizer.tokenize U S doLowerCase text = [] := by
  unfold BasicTokenizer.tokenize
  rw [h]
  simp [BasicTokenizer.cleanText, BasicTokenizer.tokenizeChineseChars, whitespaceTokenize,
    strip, BasicTokenizer.join]

theorem cjkProc_sound : AsciiSound cjkProc where
  iterate_ascii := by
    intro b rest hb
    have h := asciiProc_sound.iterate_ascii b rest hb
    unfold cjkProc
    simp only
    split
    · rename_i heq
      simp only [List.cons.injEq] at heq
      omega
    · exact h
  encode_ascii := by
    intro c hc
    have h := asciiProc_sound.encode_ascii c hc
    have hne : ¬ c = 20013 := by omega
    simp only [cjkProc, if_neg hne]
    exact h
  nfd_ascii := asciiProc_sound.nfd_ascii
  tolower_ascii := asciiProc_sound.tolower_ascii
  category_ascii := by
    intro c hc
    have h := asciiProc_sound.category_ascii c hc
    have hne : ¬ c = 20013 := by omega
    simp only [cjkProc, if_neg hne]
    exact h

end Tokenizer

namespace Tokenizer

/-! ## Segmenting a key -/

/-- A non-empty token that is itself a key is segmented into itself. -/
theorem segmentLoop_of_key (V : Vocab) (t : WString) (hne : t ≠ [])
    (hin : V.contains t = true) :
    WordpieceTokenizer.segmentLoop V t t.length 0 [] = some [t] := by
  have hpos : 0 < t.length := List.length_pos.mpr hne
  obtain ⟨n, hn⟩ : ∃ n, t.length = n + 1 := ⟨t.length - 1, by omega⟩
  have hcand : WordpieceTokenizer.candidate t 0 (n + 1) = t := by
    rw [candidate_eq]
    simp [piece, ← hn]
  have hm : WordpieceTokenizer.matchLoop V t 0 (n + 1) = some (t, n + 1) := by
    unfold WordpieceTokenizer.matchLoop
    rw [if_pos (by omega), hcand, if_pos hin]
  rw [hn]
  unfold WordpieceTokenizer.segmentLoop
  rw [if_pos (by omega), hn, hm]
  simp only [List.nil_append]
  cases n with
  | zero => rfl
  | succ m =>
    unfold WordpieceTokenizer.segmentLoop
    rw [if_neg (by omega)]

end Tokenizer

namespace Tokenizer

/-! ## `runSplitOnPunc` cuts the text into punctuation and words -/

theorem punctToken_not_word (U : Utf8proc) (x : WString) (h : PunctToken U x) :
    ¬ WordToken U x := by
  obtain ⟨c, rfl, hc⟩ := h
  intro hw
  have := hw.2 c (List.mem_singleton.mpr rfl)
  rw [hc] at this
  exact absurd this (by simp)

theorem runSplitOnPuncLoop_spec (U : Utf8proc) :
    ∀ (text : WString) (startNewWord : Bool) (output : List WString),
      (∀ x ∈ output, PunctToken U x ∨ WordToken U x) →
      List.Chain' (fun a b => ¬ (WordToken U a ∧ WordToken U b)) output →
      (startNewWord = false → ∃ init last, output = init ++ [last] ∧ WordToken U last) →
      (startNewWord = true → ∀ last ∈ output.getLast?, PunctToken U last) →
      (BasicTokenizer.runSplitOnPuncLoop U text startNewWord output).flatten =
        output.flatten ++ text ∧
      (∀ x ∈ BasicTokenizer.runSplitOnPuncLoop U text startNewWord output,
        PunctToken U x ∨ WordToken U x) ∧
      List.Chain' (fun a b => ¬ (WordToken U a ∧ WordToken U b))
        (BasicTokenizer.runSplitOnPuncLoop U text startNewWord output) := by
  intro text
  induction text with
  | nil =>
    intro snw output h1 h2 _ _
    simp only [BasicTokenizer.runSplitOnPuncLoop, List.append_nil]
    exact ⟨trivial, h1, h2⟩
  | cons ch rest ih =>
    intro snw output h1 h2 h3 h4
    unfold BasicTokenizer.runSplitOnPuncLoop
    by_cases hp : BasicTokenizer.isPunctuation U ch = true
    · rw [if_pos hp]
      have hpt : PunctToken U [ch] := ⟨ch, rfl, hp⟩
      have key := ih true (output ++ [[ch]])
        (by
          intro x hx
          rcases List.mem_append.mp hx with h | h
          · exact h1 x h
          · rw [List.mem_singleton.mp h]; exact Or.inl hpt)
        (by
          apply List.Chain'.append h2 (List.chain'_singleton _)
          intro x _ y hy hcon
          simp only [List.head?_cons, Option.mem_def, Option.some.injEq] at hy
          subst hy
          exact punctToken_not_word U _ hpt hcon.2)
        (by intro h; exact absurd h (by simp))
        (by
          intro _ last hl
          simp only [List.getLast?_append, List.getLast?_singleton, Option.mem_def] at hl
          have : last = [ch] := by simpa using hl.symm
          rw [this]
          exact hpt)
      refine ⟨?_, key.2⟩
      rw [key.1]
      simp
    · rw [if_neg hp]
      have hp2 : BasicTokenizer.isPunctuation U ch = false := by simpa using hp
      cases snw with
      | true =>
        simp only [if_true]
        rw [appendToLast_snoc]
        have hwt : WordToken U ([] ++ [ch]) :=
          ⟨by simp, by
            intro c hc
            have hcc : c = ch := by simpa using hc
            rw [hcc]
            exact hp2⟩
        have key := ih false (output ++ [[] ++ [ch]])
          (by
            intro x hx
            rcases List.mem_append.mp hx with h | h
            · exact h1 x h
            · rw [List.mem_singleton.mp h]; exact Or.inr hwt)
          (by
            apply List.Chain'.append h2 (List.chain'_singleton _)
            intro x hx y _ hcon
            exact punctToken_not_word U x (h4 rfl x hx) hcon.1)
          (by intro _; exact ⟨output, [] ++ [ch], rfl, hwt⟩)
          (by intro h; exact absurd h (by simp))
        refine ⟨?_, key.2⟩
        rw [key.1]
        simp
      | false =>
        obtain ⟨init, last, e, hl⟩ := h3 rfl
        subst e
        simp only [Bool.false_eq_true, if_false]
        rw [appendToLast_snoc]
        have hwt : WordToken U (last ++ [ch]) := by
          refine ⟨by simp, ?_⟩
          intro c hc
          rcases List.mem_append.mp hc with h | h
          · exact hl.2 c h
          · rw [List.mem_singleton.mp h]; exact hp2
        rw [List.chain'_append] at h2
        have key := ih false (init ++ [last ++ [ch]])
          (by
            intro x hx
            rcases List.mem_append.mp hx with h | h
            · exact h1 x (List.mem_append_left _ h)
            · rw [List.mem_singleton.mp h]; exact Or.inr hwt)
          (by
            apply List.Chain'.append h2.1 (List.chain'_singleton _)
            intro x hx y _ hcon
            exact h2.2.2 x hx last (by simp) ⟨hcon.1, hl⟩)
          (by intro _; exact ⟨init, last ++ [ch], rfl, hwt⟩)
          (by intro h; exact absurd h (by simp))
        refine ⟨?_, key.2⟩
        rw [key.1]
        simp

end Tokenizer

namespace Tokenizer

/-! ## Texts of ASCII letters and spaces -/

theorem letter_bounds (c : Nat) (h : isAsciiLetter c ∨ c = 32) : 0 < c ∧ c < 128 := by
  unfold isAsciiLetter at h
  omega

theorem asciiLower_letter (c : Nat) (h : isAsciiLetter c ∨ c = 32) :
    isAsciiLetter (asciiLower c) ∨ asciiLower c = 32 := by
  unfold isAsciiLetter asciiLower at *
  split <;> omega

theorem asciiLower_idem (c : Nat) : asciiLower (asciiLower c) = asciiLower c := by
  unfold asciiLower
  by_cases h : 65 ≤ c ∧ c ≤ 90
  · simp only [if_pos h]
    rw [if_neg (by omega)]
  · simp only [if_neg h]

theorem asciiCategory_upper :
    ∀ c < 128, (65 ≤ c ∧ c ≤ 90) → asciiCategory c = Category.LU := by
  decide

theorem asciiCategory_lower :
    ∀ c < 128, (97 ≤ c ∧ c ≤ 122) → asciiCategory c = Category.LL := by
  decide

theorem isStripChar_lower (S : WString) (hS : ∀ c ∈ S, c ≤ 32) (c : Nat)
    (h : isAsciiLetter c ∨ c = 32) : isStripChar S (asciiLower c) = isStripChar S c := by
  rcases h with h | h
  · have h1 : 32 < c := by unfold isAsciiLetter at h; omega
    have h2 : 32 < asciiLower c := by
      unfold asciiLower; split <;> omega
    rw [isStripChar_above hS c h1, isStripChar_above hS _ h2]
  · subst h
    rfl

theorem cleanText_letters (U : Utf8proc) (hU : AsciiSound U) :
    ∀ (x : WString), (∀ c ∈ x, isAsciiLetter c ∨ c = 32) → BasicTokenizer.cleanText U x = x := by
  intro x
  induction x with
  | nil => intro _; rfl
  | cons c rest ih =>
    intro h
    have hc := h c (List.mem_cons_self _ _)
    have hb := letter_bounds c hc
    have hcat := hU.category_ascii c hb.2
    have hrest := ih (fun y hy => h y (List.mem_cons_of_mem _ hy))
    unfold BasicTokenizer.cleanText
    rw [hrest]
    rcases hc with hc | hc
    · have hcc : asciiCategory c = Category.LU ∨ asciiCategory c = Category.LL := by
        unfold isAsciiLetter at hc
        rcases hc with h1 | h1
        · exact Or.inl (asciiCategory_upper c hb.2 h1)
        · exact Or.inr (asciiCategory_lower c hb.2 h1)
      have h9 : ¬ (c = 9 ∨ c = 10 ∨ c = 13) := by unfold isAsciiLetter at hc; omega
      have h32 : ¬ (c = 32 ∨ c = 9 ∨ c = 10 ∨ c = 13) := by unfold isAsciiLetter at hc; omega
      have hctl : BasicTokenizer.isControol U c = false := by
        unfold BasicTokenizer.isControol
        rw [if_neg h9, hcat]
        rcases hcc with h1 | h1 <;> rw [h1] <;> rfl
      have hws : BasicTokenizer.isWhitespace U c = false := by
        unfold BasicTokenizer.isWhitespace
        rw [if_neg h32, hcat]
        rcases hcc with h1 | h1 <;> rw [h1] <;> rfl
      have h0 : ¬ (c = 0 ∨ c = 0xfffd ∨ BasicTokenizer.isControol U c = true) := by
        rw [hctl]
        unfold isAsciiLetter at hc
        simp only [Bool.false_eq_true, or_false]
        omega
      rw [if_neg h0, hws]
      rfl
    · subst hc
      have hctl : BasicTokenizer.isControol U 32 = false := by
        unfold BasicTokenizer.isControol
        rw [if_neg (by omega), hcat]
        rfl
      have hws : BasicTokenizer.isWhitespace U 32 = true := by
        unfold BasicTokenizer.isWhitespace
        rw [if_pos (Or.inl rfl)]
      have h0 : ¬ ((32 : Nat) = 0 ∨ (32 : Nat) = 0xfffd ∨
          BasicTokenizer.isControol U 32 = true) := by
        rw [hctl]
        simp
      rw [if_neg h0, hws]
      rfl

theorem tokenizeChineseChars_ascii :
    ∀ (x : WString), (∀ c ∈ x, c < 128) → BasicTokenizer.tokenizeChineseChars x = x := by
  intro x
  induction x with
  | nil => intro _; rfl
  | cons c rest ih =>
    intro h
    have hc := h c (List.mem_cons_self _ _)
    have hn : BasicTokenizer.isChineseChar c = false := by
      unfold BasicTokenizer.isChineseChar
      rw [if_neg (by omega)]
    unfold BasicTokenizer.tokenizeChineseChars
    rw [hn, ih (fun y hy => h y (List.mem_cons_of_mem _ hy))]
    simp

theorem dropWhile_lower (S : WString) (hS : ∀ c ∈ S, c ≤ 32) :
    ∀ (x : WString), (∀ c ∈ x, isAsciiLetter c ∨ c = 32) →
      (x.map asciiLower).dropWhile (isStripChar S) =
        (x.dropWhile (isStripChar S)).map asciiLower := by
  intro x
  induction x with
  | nil => intro _; rfl
  | cons c rest ih =>
    intro h
    have hc := isStripChar_lower S hS c (h c (List.mem_cons_self _ _))
    simp only [List.map_cons, List.dropWhile_cons, hc]
    by_cases hp : isStripChar S c = true
    · rw [if_pos hp, if_pos hp]
      exact ih (fun y hy => h y (List.mem_cons_of_mem _ hy))
    · rw [if_neg hp, if_neg hp]
      rfl

theorem strip_lower (S : WString) (hS : ∀ c ∈ S, c ≤ 32) (x : WString)
    (h : ∀ c ∈ x, isAsciiLetter c ∨ c = 32) :
    strip S (x.map asciiLower) = (strip S x).map asciiLower := by
  unfold strip
  rw [dropWhile_lower S hS x h, ← List.map_reverse, dropWhile_lower S hS, List.map_reverse]
  intro c hc
  rw [List.mem_reverse] at hc
  exact h c (List.dropWhile_subset _ hc)

theorem splitLoop_lower (S : WString) (hS : ∀ c ∈ S, c ≤ 32) :
    ∀ (x cur : WString), (∀ c ∈ x, isAsciiLetter c ∨ c = 32) →
      splitLoop S (x.map asciiLower) (cur.map asciiLower) =
        (splitLoop S x cur).map (List.map asciiLower) := by
  intro x
  induction x with
  | nil => intro cur _; rfl
  | cons c rest ih =>
    intro cur h
    have hc := isStripChar_lower S hS c (h c (List.mem_cons_self _ _))
    have hrest : ∀ y ∈ rest, isAsciiLetter y ∨ y = 32 :=
      fun y hy => h y (List.mem_cons_of_mem _ hy)
    simp only [List.map_cons]
    unfold splitLoop
    rw [hc]
    by_cases hp : isStripChar S c = true
    · rw [if_pos hp, if_pos hp]
      have := ih [] hrest
      simp only [List.map_nil] at this
      rw [this]
      rfl
    · rw [if_neg hp, if_neg hp]
      have := ih (cur ++ [c]) hrest
      simp only [List.map_append, List.map_cons, List.map_nil] at this
      exact this

theorem whitespaceTokenize_lower (S : WString) (hS : ∀ c ∈ S, c ≤ 32) (x : WString)
    (h : ∀ c ∈ x, isAsciiLetter c ∨ c = 32) :
    whitespaceTokenize S (x.map asciiLower) =
      (whitespaceTokenize S x).map (List.map asciiLower) := by
  unfold whitespaceTokenize split
  rw [strip_lower S hS x h]
  have h0 := splitLoop_lower S hS x [] h
  simp only [List.map_nil] at h0
  by_cases he : (strip S x).isEmpty = true
  · have he2 : ((strip S x).map asciiLower).isEmpty = true := by
      simpa using he
    rw [if_pos he, if_pos he2]
    rfl
  · have he2 : ¬ ((strip S x).map asciiLower).isEmpty = true := by
      simpa using he
    rw [if_neg he, if_neg he2, h0]

theorem splitLoop_mem (S : WString) :
    ∀ (x cur : WString), ∀ t ∈ splitLoop S x cur, ∀ c ∈ t, c ∈ cur ∨ c ∈ x := by
  intro x
  induction x with
  | nil =>
    intro cur t ht c hc
    simp only [splitLoop, List.mem_singleton] at ht
    subst ht
    exact Or.inl hc
  | cons a rest ih =>
    intro cur t ht c hc
    unfold splitLoop at ht
    by_cases hp : isStripChar S a = true
    · rw [if_pos hp] at ht
      rcases List.mem_cons.mp ht with h | h
      · subst h
        exact Or.inl hc
      · rcases ih [] t h c hc with h2 | h2
        · simp at h2
        · exact Or.inr (List.mem_cons_of_mem _ h2)
    · rw [if_neg hp] at ht
      rcases ih (cur ++ [a]) t ht c hc with h2 | h2
      · rcases List.mem_append.mp h2 with h3 | h3
        · exact Or.inl h3
        · rw [List.mem_singleton.mp h3]
          exact Or.inr (List.mem_cons_self _ _)
      · exact Or.inr (List.mem_cons_of_mem _ h2)

theorem whitespaceTokenize_mem (S : WString) (x : WString) :
    ∀ t ∈ whitespaceTokenize S x, ∀ c ∈ t, c ∈ x := by
  intro t ht c hc
  unfold whitespaceTokenize at ht
  split at ht
  · simp at ht
  · rcases splitLoop_mem S x [] t ht c hc with h | h
    · simp at h
    · exact h

theorem splitToken_lower (U : Utf8proc) (hU : AsciiSound U) (t : WString)
    (h : ∀ c ∈ t, isAsciiLetter c ∨ c = 32) :
    BasicTokenizer.splitToken U true (t.map asciiLower) = BasicTokenizer.splitToken U true t := by
  have h1 : tolower U t = t.map asciiLower := by
    unfold tolower
    apply List.map_congr_left
    intro c hc
    exact hU.tolower_ascii c (letter_bounds c (h c hc)).2
  have h2 : tolower U (t.map asciiLower) = t.map asciiLower := by
    unfold tolower
    rw [List.map_map]
    apply List.map_congr_left
    intro c hc
    have hl := asciiLower_letter c (h c hc)
    simp only [Function.comp]
    rw [hU.tolower_ascii _ (letter_bounds _ hl).2, asciiLower_idem]
  unfold BasicTokenizer.splitToken
  simp only [if_true]
  rw [h1, h2]

/-- With lowercasing, the basic tokenizer gives the same tokens for a text
of ASCII letters and spaces and for its lowercase form. -/
theorem basic_lower (U : Utf8proc) (S : WString) (hU : AsciiSound U)
    (hS : ∀ c ∈ S, c ≤ 32) (x : List Nat) (h : ∀ c ∈ x, isAsciiLetter c ∨ c = 32) :
    BasicTokenizer.tokenize U S true x = BasicTokenizer.tokenize U S true (x.map asciiLower) := by
  have hl : ∀ c ∈ x.map asciiLower, isAsciiLetter c ∨ c = 32 := by
    intro c hc
    rw [List.mem_map] at hc
    obtain ⟨d, hd, rfl⟩ := hc
    exact asciiLower_letter d (h d hd)
  have hx128 : ∀ c ∈ x, c < 128 := fun c hc => (letter_bounds c (h c hc)).2
  have hl128 : ∀ c ∈ x.map asciiLower, c < 128 := fun c hc => (letter_bounds c (hl c hc)).2
  simp only [BasicTokenizer.tokenize]
  rw [convertToUnicode_ascii hU x hx128, convertToUnicode_ascii hU _ hl128,
    cleanText_letters U hU x h, cleanText_letters U hU _ hl,
    tokenizeChineseChars_ascii x hx128, tokenizeChineseChars_ascii _ hl128,
    whitespaceTokenize_lower S hS x h, List.map_map]
  have hmap : List.map (BasicTokenizer.splitToken U true ∘ List.map asciiLower)
      (whitespaceTokenize S x) =
      List.map (BasicTokenizer.splitToken U true) (whitespaceTokenize S x) := by
    apply List.map_congr_left
    intro t ht
    simp only [Function.comp]
    exact splitToken_lower U hU t (fun c hc => h c (whitespaceTokenize_mem S x t ht c hc))
  rw [hmap]

end Tokenizer

namespace Tokenizer

/-! ## CJK characters stay alone in their tokens -/

theorem splitLoop_chain (S : WString) (R : Nat → Nat → Prop) :
    ∀ (text cur : WString), List.Chain' R (cur ++ text) →
      (∀ c ∈ cur, isStripChar S c = false) →
      ∀ t ∈ splitLoop S text cur, List.Chain' R t ∧ ∀ c ∈ t, isStripChar S c = false := by
  intro text
  induction text with
  | nil =>
    intro cur h1 h2 t ht
    simp only [splitLoop, List.mem_singleton] at ht
    subst ht
    exact ⟨by simpa using h1, h2⟩
  | cons c rest ih =>
    intro cur h1 h2 t ht
    unfold splitLoop at ht
    by_cases hc : isStripChar S c = true
    · rw [if_pos hc] at ht
      rcases List.mem_cons.mp ht with h | h
      · subst h
        exact ⟨h1.left_of_append, h2⟩
      · have h3 : List.Chain' R (c :: rest) := h1.right_of_append
        exact ih [] (by simpa using h3.tail) (by simp) t h
    · rw [if_neg hc] at ht
      have hc2 : isStripChar S c = false := by simpa using hc
      apply ih (cur ++ [c]) (by simpa using h1) _ t ht
      intro x hx
      rcases List.mem_append.mp hx with h | h
      · exact h2 x h
      · rw [List.mem_singleton.mp h]; exact hc2

theorem whitespaceTokenize_chain (S : WString) (R : Nat → Nat → Prop) (text : WString)
    (h : List.Chain' R text) :
    ∀ t ∈ whitespaceTokenize S text,
      List.Chain' R t ∧ ∀ c ∈ t, isStripChar S c = false := by
  intro t ht
  unfold whitespaceTokenize at ht
  split at ht
  · simp at ht
  · exact splitLoop_chain S R text [] (by simpa using h) (by simp) t ht

/-- A delimiter-free separated text of two or more codepoints has no
codepoint with the property. -/
theorem sep_free (P : Nat → Bool) (S : WString) :
    ∀ (t : WString), List.Chain' (SepBy P S) t → (∀ c ∈ t, isStripChar S c = false) →
      2 ≤ t.length → ∀ c ∈ t, P c = false := by
  intro t
  induction t with
  | nil => intro _ _ h; simp at h
  | cons a t ih =>
    intro hch hns hlen
    cases t with
    | nil => simp at hlen
    | cons b t2 =>
      rw [List.chain'_cons] at hch
      have ha := hns a (List.mem_cons_self _ _)
      have hb := hns b (List.mem_cons_of_mem _ (List.mem_cons_self _ _))
      have hsep := hch.1
      have hpa : P a = false := by
        by_contra hcon
        have : P a = true := by simpa using hcon
        rcases hsep (Or.inl this) with h | h
        · rw [ha] at h; exact absurd h (by simp)
        · rw [hb] at h; exact absurd h (by simp)
      have hpb : P b = false := by
        by_contra hcon
        have : P b = true := by simpa using hcon
        rcases hsep (Or.inr this) with h | h
        · rw [ha] at h; exact absurd h (by simp)
        · rw [hb] at h; exact absurd h (by simp)
      intro c hc
      rcases List.mem_cons.mp hc with h | h
      · rw [h]; exact hpa
      · cases t2 with
        | nil =>
          rw [List.mem_singleton.mp h]; exact hpb
        | cons d t3 =>
          exact ih hch.2 (fun x hx => hns x (List.mem_cons_of_mem _ hx)) (by simp) c h

theorem sep_short_or_free (P : Nat → Bool) (S : WString) (t : WString)
    (h1 : List.Chain' (SepBy P S) t) (h2 : ∀ c ∈ t, isStripChar S c = false) :
    t.length ≤ 1 ∨ ∀ c ∈ t, P c = false := by
  by_cases hl : t.length ≤ 1
  · exact Or.inl hl
  · exact Or.inr (sep_free P S t h1 h2 (by omega))

theorem chain_of_short_or_free (P : Nat → Bool) (S : WString) (x : WString)
    (h : x.length ≤ 1 ∨ ∀ c ∈ x, P c = false) : List.Chain' (SepBy P S) x := by
  rcases h with h | h
  · cases x with
    | nil => exact List.chain'_nil
    | cons a t =>
      cases t with
      | nil => exact List.chain'_singleton a
      | cons b t2 => simp at h
  · induction x with
    | nil => exact List.chain'_nil
    | cons a t ih =>
      rw [List.chain'_cons']
      refine ⟨?_, ih (fun c hc => h c (List.mem_cons_of_mem _ hc))⟩
      intro y hy hor
      have ha := h a (List.mem_cons_self _ _)
      have hb := h y (List.mem_cons_of_mem _ (List.mem_of_mem_head? hy))
      rcases hor with h3 | h3
      · rw [ha] at h3; exact absurd h3 (by simp)
      · rw [hb] at h3; exact absurd h3 (by simp)

theorem chain_joined (P : Nat → Bool) (S : WString) (h32 : 32 ∈ S) :
    ∀ (ys : List WString), (∀ x ∈ ys, x.length ≤ 1 ∨ ∀ c ∈ x, P c = false) →
      List.Chain' (SepBy P S) ((ys.map (fun w => w ++ [32])).flatten) := by
  intro ys
  induction ys with
  | nil => intro _; exact List.chain'_nil
  | cons y rest ih =>
    intro h
    simp only [List.map_cons, List.flatten_cons]
    apply List.Chain'.append
    · apply List.Chain'.append (chain_of_short_or_free P S y (h y (List.mem_cons_self _ _)))
        (List.chain'_singleton 32)
      intro a _ b hb _
      simp only [List.head?_cons, Option.mem_def, Option.some.injEq] at hb
      subst hb
      exact Or.inr (isStripChar_space h32)
    · exact ih (fun x hx => h x (List.mem_cons_of_mem _ hx))
    · intro a ha b _ _
      simp only [List.getLast?_append, List.getLast?_singleton, Option.mem_def] at ha
      have : a = 32 := by simpa using ha.symm
      subst this
      exact Or.inl (isStripChar_space h32)

theorem tokenizeChineseChars_chain (S : WString) (h32 : 32 ∈ S) :
    ∀ (x : WString),
      List.Chain' (SepBy BasicTokenizer.isChineseChar S) (BasicTokenizer.tokenizeChineseChars x) ∧
      ∀ y ∈ (BasicTokenizer.tokenizeChineseChars x).head?,
        BasicTokenizer.isChineseChar y = false := by
  intro x
  induction x with
  | nil => exact ⟨List.chain'_nil, by simp [BasicTokenizer.tokenizeChineseChars]⟩
  | cons ch rest ih =>
    have hsp := isStripChar_space h32
    unfold BasicTokenizer.tokenizeChineseChars
    by_cases hc : BasicTokenizer.isChineseChar ch = true
    · rw [if_pos hc]
      refine ⟨?_, ?_⟩
      · rw [List.chain'_cons, List.chain'_cons, List.chain'_cons']
        exact ⟨fun _ => Or.inl hsp, fun _ => Or.inr hsp, fun y _ _ => Or.inl hsp, ih.1⟩
      · intro y hy
        simp only [List.head?_cons, Option.mem_def, Option.some.injEq] at hy
        subst hy
        decide
    · rw [if_neg hc]
      have hc2 : BasicTokenizer.isChineseChar ch = false := by simpa using hc
      refine ⟨?_, ?_⟩
      · rw [List.chain'_cons']
        refine ⟨?_, ih.1⟩
        intro y hy hor
        have hy2 := ih.2 y hy
        rcases hor with h | h
        · rw [hc2] at h; exact absurd h (by simp)
        · rw [hy2] at h; exact absurd h (by simp)
      · intro y hy
        simp only [List.head?_cons, Option.mem_def, Option.some.injEq] at hy
        subst hy
        exact hc2

theorem length_le_flatten (xs : List WString) : ∀ x ∈ xs, x.length ≤ xs.flatten.length := by
  induction xs with
  | nil => intro x hx; simp at hx
  | cons a t ih =>
    intro x hx
    simp only [List.flatten_cons, List.length_append]
    rcases List.mem_cons.mp hx with h | h
    · rw [h]; omega
    · have := ih x h
      omega

/-- Without lowercasing, a token of the basic tokenizer that contains a CJK
codepoint consists of that codepoint alone. -/
theorem basic_cjk_alone (U : Utf8proc) (S : WString) (h32 : 32 ∈ S) (text : List Nat) :
    ∀ t ∈ BasicTokenizer.tokenize U S false text, ∀ c ∈ t,
      BasicTokenizer.isChineseChar c = true → t = [c] := by
  intro t ht c hc hcjk
  simp only [BasicTokenizer.tokenize] at ht
  have hjoin : List.Chain' (SepBy BasicTokenizer.isChineseChar S)
      (BasicTokenizer.join ((List.map (BasicTokenizer.splitToken U false)
        (whitespaceTokenize S (BasicTokenizer.tokenizeChineseChars
          (BasicTokenizer.cleanText U (convertToUnicode U text))))).flatten)) := by
    unfold BasicTokenizer.join
    apply chain_joined BasicTokenizer.isChineseChar S h32
    intro x hx
    have hx2 := List.mem_of_mem_dropLast hx
    rw [List.mem_flatten] at hx2
    obtain ⟨l, hl, hxl⟩ := hx2
    rw [List.mem_map] at hl
    obtain ⟨tok, htok, rfl⟩ := hl
    obtain ⟨g1, g2⟩ := whitespaceTokenize_chain S _ _ (tokenizeChineseChars_chain S h32 _).1
      tok htok
    have hfl : (BasicTokenizer.runSplitOnPunc U tok).flatten = tok := by
      have key := runSplitOnPuncLoop_spec U tok true [] (by simp) List.chain'_nil
        (by intro h; exact absurd h (by simp)) (by simp)
      unfold BasicTokenizer.runSplitOnPunc
      rw [key.1]
      simp
    have hxl2 : x ∈ BasicTokenizer.runSplitOnPunc U tok := by
      simpa [BasicTokenizer.splitToken] using hxl
    rcases sep_short_or_free _ S tok g1 g2 with h | h
    · left
      have := length_le_flatten _ x hxl2
      rw [hfl] at this
      omega
    · right
      intro d hd
      apply h d
      rw [← hfl, List.mem_flatten]
      exact ⟨x, hxl2, hd⟩
  obtain ⟨k1, k2⟩ := whitespaceTokenize_chain S _ _ hjoin t ht
  rcases sep_short_or_free _ S t k1 k2 with h | h
  · cases t with
    | nil => simp at hc
    | cons a t2 =>
      cases t2 with
      | nil =>
        rw [List.mem_singleton.mp hc]
      | cons b t3 => simp at h
  · have := h c hc
    rw [hcjk] at this
    exact absurd this (by simp)

end Tokenizer

namespace Tokenizer

/-! ## Lookups of absent tokens -/

/-- Claim C11, as the code has it: for every vocabulary and every token that
is not a key of it, `convertTokenToId` returns the id 0, and
`convertTokensToIds` returns, position by position, the stored id of a key
and 0 for a token that is not a key; no error is reported. -/
theorem C11_absent_token_gets_id_zero (V : Vocab) (token : WString)
    (h : V.contains token = false) :
    (FullTokenizer.convertTokenToId V token).1 = 0 ∧
    (List.lookup token V).getD 0 = 0 ∧
    ∀ tokens : List WString, (FullTokenizer.convertTokensToIds V tokens).1 =
      tokens.map (fun t => (List.lookup t V).getD 0) := by
  have hl : List.lookup token V = none := by
    simpa [Vocab.contains] using h
  refine ⟨?_, by rw [hl]; rfl, ?_⟩
  · unfold FullTokenizer.convertTokenToId
    rw [index_fst, hl]
    rfl
  · intro tokens
    unfold FullTokenizer.convertTokensToIds
    rw [convertTokensToIdsLoop_getD V tokens V [] (fun _ => rfl)]
    simp

/-- Witness for C11: the token `foo` in the example vocabulary. -/
theorem C11_absent_token_gets_id_zero_witness :
    exampleVocab.contains [102, 111, 111] = false ∧
    (FullTokenizer.convertTokenToId exampleVocab [102, 111, 111]).1 = 0 :=
  ⟨by decide, (C11_absent_token_gets_id_zero exampleVocab [102, 111, 111] (by decide)).1⟩

/-- Counterexample to C11 as stated: `foo` is not a key of the example
vocabulary, yet `convertTokenToId` returns an id for it, the id 0 of the key
`[UNK]`, and `convertTokensToIds` returns the ids 1 and 0 for `hello`, `foo`. -/
theorem C11_absent_token_is_no_error :
    exampleVocab.contains [102, 111, 111] = false ∧
    (FullTokenizer.convertTokenToId exampleVocab [102, 111, 111]).1 = 0 ∧
    List.lookup unkToken exampleVocab = some 0 ∧
    (FullTokenizer.convertTokensToIds exampleVocab
      [[104, 101, 108, 108, 111], [102, 111, 111]]).1 = [1, 0] := by
  decide

/-- Claim C12: if the unknown marker is a key of the vocabulary, then for
every text every token returned by `FullTokenizer::tokenize` is a key of the
vocabulary, and both `tokenizeToIds` leave the vocabulary exactly as it was:
no lookup inserts an entry. -/
theorem C12_marker_in_vocabulary_keeps_it (U : Utf8proc) (S : WString) (doLowerCase : Bool)
    (V : Vocab) (unk : WString) (maxChars : Nat) (text : List Nat)
    (ids0 mask0 : Int → Int) (size start : Int)
    (hunk : V.contains unk = true) :
    (∀ t ∈ FullTokenizer.tokenize U S doLowerCase V unk maxChars text, V.contains t = true) ∧
    (FullTokenizer.tokenizeToIds U S doLowerCase V unk maxChars text size).vocab = V ∧
    (FullTokenizer.tokenizeToIdsBuf U S doLowerCase V unk maxChars text ids0 mask0
      size start).vocab = V := by
  have hext : ∀ V2, Ext V unk V2 → V2 = V := by
    intro V2 h
    rcases h with h | ⟨h, _⟩
    · exact h
    · rw [hunk] at h
      exact absurd h (by simp)
  refine ⟨?_, ?_, ?_⟩
  · intro t ht
    unfold FullTokenizer.tokenize at ht
    rw [List.mem_flatten] at ht
    obtain ⟨l, hl, htl⟩ := ht
    rw [List.mem_map] at hl
    obtain ⟨w, _, rfl⟩ := hl
    rcases wordpiece_known S V unk maxChars w t htl with h | h
    · rw [h]; exact hunk
    · exact h
  · obtain ⟨V2, e, h⟩ := tokenizeToIds_spec U S doLowerCase V unk maxChars text size
      (Or.inl hunk)
    rw [h]
    exact hext V2 e
  · have hsim := bufOuter_sim S unk maxChars start ids0 mask0 size
      (BasicTokenizer.tokenize U S doLowerCase text) ⟨V, ids0, mask0, start, []⟩ ⟨V, [], 0⟩
      (sim_init V start ids0 mask0)
    obtain ⟨V2, e, hspec⟩ := tokenizeToIds_spec U S doLowerCase V unk maxChars text
      (size - start) (Or.inl hunk)
    unfold FullTokenizer.tokenizeToIds at hspec
    rw [hspec] at hsim
    unfold FullTokenizer.tokenizeToIdsBuf
    rw [hsim.1]
    exact hext V2 e

/-- Witness for C12: the example vocabulary, which has the marker `[UNK]`,
and the text `hello worlds x`. -/
theorem C12_marker_in_vocabulary_keeps_it_witness :
    exampleVocab.contains unkToken = true ∧
    (FullTokenizer.tokenizeToIds asciiProc asciiStripChar true exampleVocab unkToken 200
      [104, 101, 108, 108, 111, 32, 119, 111, 114, 108, 100, 115, 32, 120] 5).vocab
      = exampleVocab :=
  ⟨by decide,
    (C12_marker_in_vocabulary_keeps_it asciiProc asciiStripChar true exampleVocab unkToken 200
      [104, 101, 108, 108, 111, 32, 119, 111, 114, 108, 100, 115, 32, 120]
      (fun _ => 0) (fun _ => 0) 5 0 (by decide)).2.1⟩

/-! ## Vocabulary loading -/

/-- Claim C13: for every vocabulary file, given as its list of lines, in
which no line is empty or undecodable and the tokens of the lines, stripped
of leading and trailing delimiters, are pairwise distinct, `loadVocab`
returns a mapping with exactly one entry per line that sends the stripped
token of line `i` (counting from 0) to the id `i`; the ids are exactly
`0 .. n-1` in line order. -/
theorem C13_loadVocab_numbers_lines (U : Utf8proc) (S : WString) (lines : List (List Nat))
    (hdec : ∀ l ∈ lines, convertToUnicode U l ≠ [])
    (hdist : (lines.map (fun l => strip S (convertToUnicode U l))).Nodup) :
    (loadVocab U S lines).length = lines.length ∧
    (∀ (i : Nat) (l : List Nat), lines[i]? = some l →
      List.lookup (strip S (convertToUnicode U l)) (loadVocab U S lines) = some i) ∧
    (loadVocab U S lines).map Prod.snd = List.range lines.length := by
  have hform : loadVocab U S lines =
      List.zip (lines.map (fun l => strip S (convertToUnicode U l)))
        (List.range' 0 lines.length) := by
    unfold loadVocab
    rw [loadVocabLoop_distinct U S lines 0 [] hdec (by simpa using hdist)]
    simp
  refine ⟨?_, ?_, ?_⟩
  · rw [hform]
    simp
  · intro i l hl
    have h1 : (lines.map (fun l => strip S (convertToUnicode U l)))[i]? =
        some (strip S (convertToUnicode U l)) := by
      rw [List.getElem?_map, hl]
      rfl
    have h2 := lookup_zip_range _ 0 i _ hdist h1
    rw [List.length_map] at h2
    rw [hform, h2]
    simp
  · rw [hform, List.map_snd_zip]
    · exact Eq.symm (List.range_eq_range' _)
    · simp

/-- Witness for C13: the three lines `a`, `b` followed by a space, and `c`. -/
theorem C13_loadVocab_numbers_lines_witness :
    (∀ l ∈ ([[97], [98, 32], [99]] : List (List Nat)), convertToUnicode asciiProc l ≠ []) ∧
    (([[97], [98, 32], [99]] : List (List Nat)).map
      (fun l => strip asciiStripChar (convertToUnicode asciiProc l))).Nodup ∧
    (loadVocab asciiProc asciiStripChar [[97], [98, 32], [99]]).map Prod.snd = List.range 3 :=
  ⟨by decide, by decide,
    (C13_loadVocab_numbers_lines asciiProc asciiStripChar [[97], [98, 32], [99]]
      (by decide) (by decide)).2.2⟩

/-- Claim C14, as the code has it: vocabulary loading stops at the first
line that decodes to the empty codepoint sequence (an empty line, or an
undecodable one). No line at or after it contributes an entry:
`loadVocab(pre ++ [line] ++ post) = loadVocab(pre)`; and if no line before it
consists of delimiters only, the loaded vocabulary does not have the empty
token as a key. -/
theorem C14_loading_stops_at_empty_line (U : Utf8proc) (S : WString)
    (pre : List (List Nat)) (line : List Nat) (post : List (List Nat))
    (h : convertToUnicode U line = []) :
    loadVocab U S (pre ++ [line] ++ post) = loadVocab U S pre ∧
    ((∀ l ∈ pre, strip S (convertToUnicode U l) ≠ []) →
      (loadVocab U S (pre ++ [line] ++ post)).contains [] = false) := by
  have h1 : loadVocab U S (pre ++ [line] ++ post) = loadVocab U S pre := by
    unfold loadVocab
    rw [List.append_assoc, List.singleton_append]
    exact loadVocabLoop_stop U S line post h pre 0 []
  refine ⟨h1, ?_⟩
  intro hpre
  rw [h1, contains_eq_false_iff]
  intro hmem
  rcases loadVocabLoop_keys U S pre 0 [] [] hmem with h2 | ⟨l, hl, h3⟩
  · simp at h2
  · exact hpre l hl h3.symm

/-- Witness for C14: the lines `a`, an empty line, `b`. -/
theorem C14_loading_stops_at_empty_line_witness :
    convertToUnicode asciiProc [] = [] ∧
    loadVocab asciiProc asciiStripChar ([[97]] ++ [[]] ++ [[98]]) =
      loadVocab asciiProc asciiStripChar [[97]] :=
  ⟨by decide,
    (C14_loading_stops_at_empty_line asciiProc asciiStripChar [[97]] [] [[98]]
      (by decide)).1⟩

/-- Counterexample to C14 as stated: the second of the lines `a`, one space,
`b` is empty once stripped, yet loading goes on after it: the line gets the
entry of the empty token with id 1, and `b` gets id 2. -/
theorem C14_whitespace_line_does_not_stop :
    strip asciiStripChar (convertToUnicode asciiProc [32]) = [] ∧
    loadVocab asciiProc asciiStripChar ([[97]] ++ [[32]] ++ [[98]]) =
      [([97], 0), ([], 1), ([98], 2)] ∧
    loadVocab asciiProc asciiStripChar [[97]] = [([97], 0)] ∧
    (loadVocab asciiProc asciiStripChar ([[97]] ++ [[32]] ++ [[98]])).contains [] = true := by
  decide

/-! ## The basic tokenizer: CJK characters, empty tokens, undecodable text -/

/-- Claim C15 (the code differs): with `doLowerCase = false`, a CJK codepoint
next to a non-CJK codepoint is not always returned as a token of its own. On
the validly encoded text of `a` followed by U+4E2D the isolated character is
the last token before `join`, which leaves the last token out:
`BasicTokenizer::tokenize` returns `a` and an empty token, and no token with
the character. -/
theorem C15_last_cjk_token_lost (U : Utf8proc) (S : WString)
    (hU : AsciiSound U) (hdec : ∀ rest, U.iterate (228 :: 184 :: 173 :: rest) = (3, 20013))
    (hcat : U.category 20013 = Category.LO) (h32 : 32 ∈ S) (hS : ∀ c ∈ S, c ≤ 32) :
    convertToUnicode U [97, 228, 184, 173] = [97, 20013] ∧
    BasicTokenizer.isChineseChar 20013 = true ∧
    BasicTokenizer.tokenize U S false [97, 228, 184, 173] = [[97], []] ∧
    [20013] ∉ BasicTokenizer.tokenize U S false [97, 228, 184, 173] := by
  have e1 := isStripChar_space h32
  have e2 := isStripChar_above hS
  have c1 := hU.category_ascii
  have hconv : convertToUnicode U [97, 228, 184, 173] = [97, 20013] := by
    simp [convertToUnicode, convertToUnicodeLoop, hU.iterate_ascii, hdec]
  have hb : BasicTokenizer.tokenize U S false [97, 228, 184, 173] = [[97], []] := by
    unfold BasicTokenizer.tokenize
    rw [hconv]
    simp [BasicTokenizer.cleanText, BasicTokenizer.isControol, BasicTokenizer.isWhitespace, c1,
      hcat, asciiCategory, BasicTokenizer.tokenizeChineseChars, BasicTokenizer.isChineseChar,
      whitespaceTokenize, strip, e1, e2, split, splitLoop, BasicTokenizer.splitToken]
    simp [BasicTokenizer.runSplitOnPunc, BasicTokenizer.runSplitOnPuncLoop,
      BasicTokenizer.isPunctuation, c1, hcat, asciiCategory, BasicTokenizer.appendToLast,
      BasicTokenizer.join, e1, e2, splitLoop]
  refine ⟨hconv, by decide, hb, ?_⟩
  rw [hb]
  decide

/-- Witness for C15: the ASCII library instance extended by U+4E2D, and the
usual six delimiter characters. -/
theorem C15_last_cjk_token_lost_witness :
    AsciiSound cjkProc ∧ (∀ rest, cjkProc.iterate (228 :: 184 :: 173 :: rest) = (3, 20013)) ∧
    cjkProc.category 20013 = Category.LO ∧ 32 ∈ asciiStripChar ∧
    (∀ c ∈ asciiStripChar, c ≤ 32) ∧
    BasicTokenizer.tokenize cjkProc asciiStripChar false [97, 228, 184, 173] = [[97], []] :=
  ⟨cjkProc_sound, fun _ => rfl, rfl, by decide, by decide,
    (C15_last_cjk_token_lost cjkProc asciiStripChar cjkProc_sound (fun _ => rfl) rfl
      (by decide) (by decide)).2.2.1⟩

/-- Claim C16: with `doLowerCase = true`, for every vocabulary and every two
texts made of ASCII letters and spaces that differ only in the case of their
letters (they are equal once every letter is mapped to lowercase),
`FullTokenizer::tokenize` returns the same subword sequence, and
`BasicTokenizer::tokenize` the same coarse tokens. The library maps ASCII
letters to lowercase the ASCII way and NFD leaves ASCII text unchanged. -/
theorem C16_case_insensitive_on_ascii_letters (U : Utf8proc) (S : WString) (V : Vocab)
    (unk : WString) (maxChars : Nat) (a b : List Nat)
    (hU : AsciiSound U) (hS : ∀ c ∈ S, c ≤ 32)
    (ha : ∀ c ∈ a, isAsciiLetter c ∨ c = 32) (hb : ∀ c ∈ b, isAsciiLetter c ∨ c = 32)
    (hab : a.map asciiLower = b.map asciiLower) :
    FullTokenizer.tokenize U S true V unk maxChars a =
      FullTokenizer.tokenize U S true V unk maxChars b ∧
    BasicTokenizer.tokenize U S true a = BasicTokenizer.tokenize U S true b := by
  have h : BasicTokenizer.tokenize U S true a = BasicTokenizer.tokenize U S true b := by
    rw [basic_lower U S hU hS a ha, basic_lower U S hU hS b hb, hab]
  refine ⟨?_, h⟩
  unfold FullTokenizer.tokenize
  rw [h]

/-- Witness for C16: the texts `HELLO` and `hello`. -/
theorem C16_case_insensitive_on_ascii_letters_witness :
    AsciiSound asciiProc ∧ (∀ c ∈ asciiStripChar, c ≤ 32) ∧
    (∀ c ∈ ([72, 69, 76, 76, 79] : List Nat), isAsciiLetter c ∨ c = 32) ∧
    (∀ c ∈ ([104, 101, 108, 108, 111] : List Nat), isAsciiLetter c ∨ c = 32) ∧
    ([72, 69, 76, 76, 79] : List Nat).map asciiLower =
      ([104, 101, 108, 108, 111] : List Nat).map asciiLower ∧
    FullTokenizer.tokenize asciiProc asciiStripChar true exampleVocab unkToken 200
        [72, 69, 76, 76, 79] =
      FullTokenizer.tokenize asciiProc asciiStripChar true exampleVocab unkToken 200
        [104, 101, 108, 108, 111] :=
  ⟨asciiProc_sound, by decide, by simp [isAsciiLetter], by simp [isAsciiLetter], by decide,
    (C16_case_insensitive_on_ascii_letters asciiProc asciiStripChar exampleVocab unkToken 200
      [72, 69, 76, 76, 79] [104, 101, 108, 108, 111] asciiProc_sound (by decide)
      (by simp [isAsciiLetter]) (by simp [isAsciiLetter]) (by decide)).1⟩

/-- Claim C17 (the code differs): `whitespaceTokenize` does return empty
tokens. It tests the stripped text for emptiness but splits the unstripped
text, and `split` closes a token at every delimiter: `a`, two spaces, `b`
gives `a`, an empty token and `b`; a leading or trailing space gives an empty
first or last token. `BasicTokenizer::tokenize` returns an empty token as
well, for instance on `hello hello`. -/
theorem C17_empty_tokens_are_returned (U : Utf8proc) (S : WString)
    (hU : AsciiSound U) (h32 : 32 ∈ S) (hS : ∀ c ∈ S, c ≤ 32) :
    whitespaceTokenize S [97, 32, 32, 98] = [[97], [], [98]] ∧
    whitespaceTokenize S [32, 97] = [[], [97]] ∧
    whitespaceTokenize S [97, 32] = [[97], []] ∧
    BasicTokenizer.tokenize U S true [104, 101, 108, 108, 111, 32, 104, 101, 108, 108, 111]
      = [[104, 101, 108, 108, 111], []] := by
  have e1 := isStripChar_space h32
  have e2 := isStripChar_above hS
  refine ⟨?_, ?_, ?_, basic_hello_hello U S hU h32 hS⟩
  · simp [whitespaceTokenize, strip, split, splitLoop, e1, e2]
  · simp [whitespaceTokenize, strip, split, splitLoop, e1, e2]
  · simp [whitespaceTokenize, strip, split, splitLoop, e1, e2]

/-- Witness for C17: the ASCII-only library instance and the usual six
delimiter characters. -/
theorem C17_empty_tokens_are_returned_witness :
    AsciiSound asciiProc ∧ 32 ∈ asciiStripChar ∧ (∀ c ∈ asciiStripChar, c ≤ 32) ∧
    whitespaceTokenize asciiStripChar [97, 32, 32, 98] = [[97], [], [98]] :=
  ⟨asciiProc_sound, by decide, by decide,
    (C17_empty_tokens_are_returned asciiProc asciiStripChar asciiProc_sound
      (by decide) (by decide)).1⟩

/-- Claim C18: for every text on which UTF-8 decoding fails, after a valid
beginning or right away, `convertToUnicode` yields the empty codepoint
sequence, with no partial result; therefore `BasicTokenizer::tokenize` and
`FullTokenizer::tokenize` return the empty sequence, `tokenizeToIds(text,
size)` returns the empty vector, and the buffer-filling `tokenizeToIds`
writes nothing, leaves both buffers as they are and returns the start
offset. -/
theorem C18_undecodable_text_gives_nothing (U : Utf8proc) (S : WString) (doLowerCase : Bool)
    (V : Vocab) (unk : WString) (maxChars : Nat) (text : List Nat)
    (ids0 mask0 : Int → Int) (size start : Int)
    (h : DecodeFails U text) :
    convertToUnicode U text = [] ∧
    BasicTokenizer.tokenize U S doLowerCase text = [] ∧
    FullTokenizer.tokenize U S doLowerCase V unk maxChars text = [] ∧
    (FullTokenizer.tokenizeToIds U S doLowerCase V unk maxChars text size).out = [] ∧
    (FullTokenizer.tokenizeToIdsBuf U S doLowerCase V unk maxChars text ids0 mask0
      size start).writes = [] ∧
    (FullTokenizer.tokenizeToIdsBuf U S doLowerCase V unk maxChars text ids0 mask0
      size start).input_ids = ids0 ∧
    (FullTokenizer.tokenizeToIdsBuf U S doLowerCase V unk maxChars text ids0 mask0
      size start).mask = mask0 ∧
    (FullTokenizer.tokenizeToIdsBuf U S doLowerCase V unk maxChars text ids0 mask0
      size start).i = start := by
  have hconv : convertToUnicode U text = [] :=
    convertToUnicodeLoop_fails U text h text.length [] (le_refl _)
  have hb := basic_of_decode_nil U S doLowerCase text hconv
  refine ⟨hconv, hb, ?_, ?_, ?_, ?_, ?_, ?_⟩
  · rw [FullTokenizer.tokenize, hb]; rfl
  · rw [FullTokenizer.tokenizeToIds, hb]; rfl
  · rw [FullTokenizer.tokenizeToIdsBuf, hb]; rfl
  · rw [FullTokenizer.tokenizeToIdsBuf, hb]; rfl
  · rw [FullTokenizer.tokenizeToIdsBuf, hb]; rfl
  · rw [FullTokenizer.tokenizeToIdsBuf, hb]; rfl

/-- Witness for C18: the byte of `h` followed by the byte 200, which the
ASCII-only library instance cannot decode. -/
theorem C18_undecodable_text_gives_nothing_witness :
    DecodeFails asciiProc [104, 200] ∧
    convertToUnicode asciiProc [104, 200] = [] ∧
    (FullTokenizer.tokenizeToIdsBuf asciiProc asciiStripChar true exampleVocab unkToken 200
      [104, 200] (fun _ => 7) (fun _ => 0) 4 1).i = 1 := by
  have hf : DecodeFails asciiProc [104, 200] :=
    DecodeFails.later [104, 200] (by decide) (by decide)
      (DecodeFails.here [200] (by decide) (by decide))
  have h := C18_undecodable_text_gives_nothing asciiProc asciiStripChar true exampleVocab
    unkToken 200 [104, 200] (fun _ => 7) (fun _ => 0) 4 1 hf
  exact ⟨hf, h.1, h.2.2.2.2.2.2.2⟩

/-! ## Idempotence of the segmentation -/

/-- Claim C19, as the code has it: for every vocabulary that contains the
unknown marker, the marker being itself a non-empty token without delimiter
characters and of at most `maxInputCharsPerWord` codepoints, and for every
non-empty token `w` without delimiter characters and of at most
`maxInputCharsPerWord` codepoints: rejoining the pieces of
`WordpieceTokenizer::tokenize(w)` and tokenizing the word again yields the
same pieces. -/
theorem C19_segmentation_idempotent (S : WString) (V : Vocab) (unk : WString)
    (maxChars : Nat) (w : WString)
    (hunk : V.contains unk = true) (hune : unk ≠ [])
    (hud : ∀ c ∈ unk, isStripChar S c = false) (hulen : unk.length ≤ maxChars)
    (hne : w ≠ []) (hd : ∀ c ∈ w, isStripChar S c = false) (hlen : w.length ≤ maxChars) :
    WordpieceTokenizer.tokenize S V unk maxChars
        (rejoin (WordpieceTokenizer.tokenize S V unk maxChars w)) =
      WordpieceTokenizer.tokenize S V unk maxChars w := by
  have hm : ¬ maxChars < w.length := by omega
  have hw : WordpieceTokenizer.tokenize S V unk maxChars w =
      WordpieceTokenizer.tokenizeWord V unk maxChars w := tokenize_word S V unk maxChars w hne hd
  cases hseg : WordpieceTokenizer.segmentLoop V w w.length 0 [] with
  | none =>
    have h1 : WordpieceTokenizer.tokenize S V unk maxChars w = [unk] := by
      rw [hw]
      unfold WordpieceTokenizer.tokenizeWord
      rw [if_neg hm, hseg]
      rfl
    have h2 : rejoin [unk] = unk := by simp [rejoin]
    have hmu : ¬ maxChars < unk.length := by omega
    rw [h1, h2, tokenize_word S V unk maxChars unk hune hud]
    unfold WordpieceTokenizer.tokenizeWord
    rw [if_neg hmu, segmentLoop_of_key V unk hune hunk]
    rfl
  | some r =>
    have h1 : WordpieceTokenizer.tokenize S V unk maxChars w = r := by
      rw [hw]
      unfold WordpieceTokenizer.tokenizeWord
      rw [if_neg hm, hseg]
      rfl
    have hg : Greedy V w w.length r :=
      segmentLoop_greedy V w w.length 0 [] r Greedy.start (by omega) (by omega) hseg
    have h2 : rejoin r = w := by
      rw [(greedy_rejoin V w _ r hg).2, List.take_length]
    rw [h1, h2, h1]

/-- Witness for C19: the word `worlds` with the example vocabulary. -/
theorem C19_segmentation_idempotent_witness :
    exampleVocab.contains unkToken = true ∧ unkToken ≠ [] ∧
    (∀ c ∈ unkToken, isStripChar asciiStripChar c = false) ∧ unkToken.length ≤ 200 ∧
    ([119, 111, 114, 108, 100, 115] : WString) ≠ [] ∧
    (∀ c ∈ ([119, 111, 114, 108, 100, 115] : WString), isStripChar asciiStripChar c = false) ∧
    ([119, 111, 114, 108, 100, 115] : WString).length ≤ 200 ∧
    WordpieceTokenizer.tokenize asciiStripChar exampleVocab unkToken 200
        (rejoin (WordpieceTokenizer.tokenize asciiStripChar exampleVocab unkToken 200
          [119, 111, 114, 108, 100, 115])) =
      WordpieceTokenizer.tokenize asciiStripChar exampleVocab unkToken 200
        [119, 111, 114, 108, 100, 115] :=
  ⟨by decide, by decide, by decide, by decide, by decide, by decide, by decide,
    C19_segmentation_idempotent asciiStripChar exampleVocab unkToken 200
      [119, 111, 114, 108, 100, 115] (by decide) (by decide) (by decide) (by decide)
      (by decide) (by decide) (by decide)⟩

/-- Counterexample to C19 as stated: with the marker `U K`, which contains a
space and is a key of the vocabulary, the word `z` is unsegmentable and gives
the marker; the marker, tokenized again, is split at the space into two
unsegmentable words and gives the marker twice. -/
theorem C19_marker_with_delimiter_not_idempotent :
    Vocab.contains [([85, 32, 75], 0)] [85, 32, 75] = true ∧
    ([122] : WString) ≠ [] ∧
    (∀ c ∈ ([122] : WString), isStripChar asciiStripChar c = false) ∧
    ([122] : WString).length ≤ 200 ∧
    WordpieceTokenizer.tokenize asciiStripChar [([85, 32, 75], 0)] [85, 32, 75] 200 [122]
      = [[85, 32, 75]] ∧
    WordpieceTokenizer.tokenize asciiStripChar [([85, 32, 75], 0)] [85, 32, 75] 200
        (rejoin (WordpieceTokenizer.tokenize asciiStripChar [([85, 32, 75], 0)] [85, 32, 75]
          200 [122]))
      = [[85, 32, 75], [85, 32, 75]] := by
  decide

/-! ## Punctuation splitting -/

/-- Claim C20: for every codepoint sequence `t`, the tokens of
`runSplitOnPunc(t)` concatenated in order are exactly `t`; each token is
either one codepoint for which `isPunctuation` holds or a non-empty run of
codepoints none of which is punctuation; no two neighbouring tokens are both
such runs; and `isPunctuation` holds for every codepoint in the ASCII ranges
33-47, 58-64, 91-96 and 123-126, whatever category the library gives it. -/
theorem C20_runSplitOnPunc_partition (U : Utf8proc) (t : WString) :
    (BasicTokenizer.runSplitOnPunc U t).flatten = t ∧
    (∀ x ∈ BasicTokenizer.runSplitOnPunc U t, PunctToken U x ∨ WordToken U x) ∧
    List.Chain' (fun a b => ¬ (WordToken U a ∧ WordToken U b))
      (BasicTokenizer.runSplitOnPunc U t) ∧
    ∀ (U2 : Utf8proc) (c : Nat),
      ((33 ≤ c ∧ c ≤ 47) ∨ (58 ≤ c ∧ c ≤ 64) ∨ (91 ≤ c ∧ c ≤ 96) ∨ (123 ≤ c ∧ c ≤ 126)) →
      BasicTokenizer.isPunctuation U2 c = true := by
  have key := runSplitOnPuncLoop_spec U t true [] (by simp) List.chain'_nil
    (by intro h; exact absurd h (by simp)) (by simp)
  refine ⟨?_, key.2.1, key.2.2, ?_⟩
  · unfold BasicTokenizer.runSplitOnPunc
    rw [key.1]
    simp
  · intro U2 c hc
    unfold BasicTokenizer.isPunctuation
    rw [if_pos hc]

end Tokenizer
